import Mathlib

/-!
SSVM runtime: table instance, execution stack manager and the `finish` host
function.

A shallow embedding of

* `include/runtime/instance/table.h`      (class `TableInstance`),
* `lib/executor/stackmgr.cpp`             (class `StackManager`),
* `lib/vm/hostfunc/ethereum/finish.cpp`   (method `EEIFinish::run`),

followed by the properties proved about them.

Conventions.  `uint32_t` and `unsigned int` values are natural numbers below
`2 ^ 32`; `size_t` is the 64-bit unsigned type of the LP64 targets the project
is built for, so arithmetic that the C++ performs in `size_t` is reduced modulo
`2 ^ 64` and arithmetic performed in `unsigned int` modulo `2 ^ 32`.  A
`std::vector` is a list whose head is index `0`.  Logging and the AOT symbol
hook (`Symbol`, a raw pointer into the slot array) are not part of the model.
-/

namespace SSVM

/-! ## Definitions -/

/-- Modulus of `uint32_t` / `unsigned int`. -/
def U32 : Nat := 2 ^ 32

/-- Modulus of `size_t`. -/
def USIZE : Nat := 2 ^ 64

/-- Error codes of `common/errcode.h` that occur in the modelled functions. -/
inductive ErrCode
  | Success
  | StackEmpty
  | StackWrongEntry
  | TypeNotMatch
  | WrongInstanceAddress
  | CallFunctionError
  | UndefinedElement
  | UninitializedElement
deriving DecidableEq, Repr

/-- Modelled from the spec: the enumeration `ElemType` is declared in
`common/types.h`, outside the sources; the spec names function references as
the only element type. -/
inductive ElemType
  | FuncRef
deriving DecidableEq, Repr

/-- The view of `AST::Limit` that the `TableInstance` constructor reads:
`hasMax()`, `getMin()` and `getMax()`.  The class itself is declared in
`common/ast/type.h`; its three getters are taken as given values. -/
structure Limit where
  hasMax : Bool
  getMin : Nat
  getMax : Nat
deriving DecidableEq, Repr

/-- Both bounds of a limit are `uint32_t` values. -/
def Limit.InRange (Lim : Limit) : Prop :=
  Lim.getMin < U32 ∧ Lim.getMax < U32

instance (Lim : Limit) : Decidable Lim.InRange := by
  unfold Limit.InRange; infer_instance

/-- Data members of `TableInstance`.  `Elem` is the
`std::vector<std::pair<uint32_t, uint32_t>>` of slots: `first` is the
initialised flag, `second` the function address. -/
structure TableInstance where
  ElType : ElemType
  HasMaxSize : Bool
  MinSize : Nat
  MaxSize : Nat
  Elem : List (Nat × Nat)
deriving DecidableEq, Repr

namespace TableInstance

/-- Constructor `TableInstance(Elem, Lim)`: `Elem(MinSize)` value-initialises
`MinSize` pairs, i.e. `MinSize` copies of `{0, 0}`. -/
def new (Elem : ElemType) (Lim : Limit) : TableInstance :=
  { ElType := Elem
    HasMaxSize := Lim.hasMax
    MinSize := Lim.getMin
    MaxSize := Lim.getMax
    Elem := List.replicate Lim.getMin (0, 0) }

/-- Getter `getElementType`. -/
def getElementType (t : TableInstance) : ElemType := t.ElType

/-- Getter `getSize`: `Elem.size()` converted to `uint32_t`. -/
def getSize (t : TableInstance) : Nat := t.Elem.length % U32

/-- Getter `getHasMax`. -/
def getHasMax (t : TableInstance) : Bool := t.HasMaxSize

/-- Getter `getMin`. -/
def getMin (t : TableInstance) : Nat := t.MinSize

/-- Getter `getMax`. -/
def getMax (t : TableInstance) : Nat := t.MaxSize

/-- The loop of `std::transform` in `setInitList`: the addresses are written one
after the other as `{1, Addr}`, starting at position `Offset`. -/
def transformInto : List (Nat × Nat) → Nat → List Nat → List (Nat × Nat)
  | E, _, [] => E
  | E, Offset, Addr :: Addrs => transformInto (E.set Offset (1, Addr)) (Offset + 1) Addrs

/-- Method `setInitList(Offset, Addrs)`.  The function performs no bounds check
("Boundary checked during validation"); a run that does not fit into the vector
writes past its end, which has no defined behaviour and is `none` here.
Otherwise the call returns success with the new state. -/
def setInitList (t : TableInstance) (Offset : Nat) (Addrs : List Nat) :
    Option TableInstance :=
  if Offset + Addrs.length ≤ t.Elem.length then
    some { t with Elem := transformInto t.Elem Offset Addrs }
  else
    none

/-- Semantics of `std::vector::resize(n)`: truncate to `n` elements, or append
value-initialised pairs `{0, 0}` up to length `n`. -/
def resize (E : List (Nat × Nat)) (n : Nat) : List (Nat × Nat) :=
  E.take n ++ List.replicate (n - E.length) (0, 0)

/-- Method `growTable(Count)`: the returned flag and the state afterwards.
`Count + Elem.size()` is a `size_t` sum. -/
def growTable (t : TableInstance) (Count : Nat) : Bool × TableInstance :=
  let MaxTableCaped : Nat := if t.getHasMax then min t.getMax 65536 else 65536
  if (Count + t.Elem.length % USIZE) % USIZE > MaxTableCaped then
    (false, t)
  else
    (true, { t with Elem := resize t.Elem ((Count + t.Elem.length % USIZE) % USIZE) })

/-- Method `getElemAddr(Idx)`. -/
def getElemAddr (t : TableInstance) (Idx : Nat) : Except ErrCode Nat :=
  if h : Idx ≥ t.Elem.length then
    Except.error ErrCode.UndefinedElement
  else
    if (t.Elem.get ⟨Idx, Nat.lt_of_not_ge h⟩).1 ≠ 0 then
      Except.ok (t.Elem.get ⟨Idx, Nat.lt_of_not_ge h⟩).2
    else
      Except.error ErrCode.UninitializedElement

end TableInstance

/-- A mutating call on a table instance. -/
inductive TableOp
  | growTable (Count : Nat)
  | setInitList (Offset : Nat) (Addrs : List Nat)
deriving DecidableEq, Repr

/-- The arguments of a call are `uint32_t` values. -/
def TableOp.InRange : TableOp → Prop
  | TableOp.growTable Count => Count < U32
  | TableOp.setInitList Offset Addrs => Offset < U32 ∧ ∀ a ∈ Addrs, a < U32

instance (op : TableOp) : Decidable op.InRange := by
  cases op <;> unfold TableOp.InRange <;> infer_instance

namespace TableInstance

/-- One call; `none` when the call has no defined behaviour. -/
def step (t : TableInstance) : TableOp → Option TableInstance
  | TableOp.growTable Count => some (t.growTable Count).2
  | TableOp.setInitList Offset Addrs => t.setInitList Offset Addrs

/-- A sequence of calls, oldest first. -/
def run (t : TableInstance) : List TableOp → Option TableInstance
  | [] => some t
  | op :: ops =>
    match t.step op with
    | none => none
    | some t1 => run t1 ops

/-- The table instances that can exist: built by the constructor from a limit
and then driven by `growTable` and `setInitList` calls with defined behaviour. -/
def Reachable (t : TableInstance) : Prop :=
  ∃ (ty : ElemType) (Lim : Limit) (ops : List TableOp),
    Lim.InRange ∧ (∀ op ∈ ops, op.InRange) ∧ (new ty Lim).run ops = some t

/-- The growth cap that the spec names: `min(declared max, 65536)` when a
maximum is declared, `65536` otherwise. -/
def cap (t : TableInstance) : Nat :=
  if t.getHasMax then min t.getMax 65536 else 65536

end TableInstance

/-- Write history of one slot: what a call does to the record "last address
written to slot `idx` by `setInitList`, if any". -/
def TableOp.record (idx : Nat) (cur : Option Nat) : TableOp → Option Nat
  | TableOp.growTable _ => cur
  | TableOp.setInitList Offset Addrs =>
    if Offset ≤ idx ∧ idx < Offset + Addrs.length then Addrs.get? (idx - Offset) else cur

/-- The last address written to slot `idx` by a `setInitList` call of the
sequence; `none` when no call of the sequence wrote the slot. -/
def lastWritten (idx : Nat) (ops : List TableOp) : Option Nat :=
  ops.foldl (TableOp.record idx) none


/-- The slot value that encodes a write record: `{0, 0}` for a slot never
written, `{1, Addr}` for a slot last written with `Addr`. -/
def slotOf : Option Nat → Nat × Nat
  | none => (0, 0)
  | some Addr => (1, Addr)

/-! ### Stack manager -/

/-- Value types of WebAssembly. -/
inductive ValType
  | I32
  | I64
  | F32
  | F64
deriving DecidableEq, Repr

/-- Modelled from the spec: the class `ValueEntry` is declared in a header that
is not among the sources; the spec describes it as "a tagged value holding one
of {i32, i64, f32, f64}".  The payload is kept as the bit pattern of the value,
so that two entries are equal exactly when their types and bits are. -/
structure ValueEntry where
  VType : ValType
  Bits : Nat
deriving DecidableEq, Repr

/-- The template argument `T` of `pushValue<T>`: one of the four C++ types that
carry a WebAssembly value, or any other type. -/
inductive CType
  | uint32_t
  | uint64_t
  | float
  | double
  | other
deriving DecidableEq, Repr

/-- The value type that a `ValueEntry` built from a `T` carries; `none` for the
types that the `std::is_same` tests of `pushValue` reject. -/
def CType.valType : CType → Option ValType
  | CType.uint32_t => some ValType.I32
  | CType.uint64_t => some ValType.I64
  | CType.float => some ValType.F32
  | CType.double => some ValType.F64
  | CType.other => none

/-- The three alternatives of the stack's `std::variant`, which are also the
template arguments `T` of `push`, `pop` and `getTop`. -/
inductive Kind
  | Frame
  | Label
  | Value
deriving DecidableEq, Repr

/-- A stack entry: `std::variant<unique_ptr<FrameEntry>, unique_ptr<LabelEntry>,
unique_ptr<ValueEntry>>`.  `FrameEntry` and `LabelEntry` are declared outside
the sources and stay abstract (`F`, `L`); an owning pointer is identified with
what it points to. -/
inductive Entry (F L : Type)
  | Frame (f : F)
  | Label (l : L)
  | Value (v : ValueEntry)
deriving DecidableEq, Repr

/-- Alternative held by an entry. -/
def Entry.kind {F L : Type} : Entry F L → Kind
  | Entry.Frame _ => Kind.Frame
  | Entry.Label _ => Kind.Label
  | Entry.Value _ => Kind.Value

/-- Member `std::variant::index()`: 0 for a frame, 1 for a label, 2 for a value. -/
def Entry.index {F L : Type} : Entry F L → Nat
  | Entry.Frame _ => 0
  | Entry.Label _ => 1
  | Entry.Value _ => 2

/-- Data members of `StackManager`: the stack (bottom first, so that list
positions are vector indices) and the two index vectors.  The element type of
the index vectors is declared in `executor/stackmgr.h`, outside the sources;
positions are stored exactly. -/
structure StackManager (F L : Type) where
  Stack : List (Entry F L)
  FrameIdx : List Nat
  LabelIdx : List Nat
deriving DecidableEq, Repr

/-- Outcome of a read through the index vectors: a result, an error code, an
index outside the vector (`operator[]` without defined behaviour), or a
`std::get` on the wrong alternative (`std::bad_variant_access`, not caught in
the getters). -/
inductive Access (α : Type)
  | ok (a : α)
  | err (e : ErrCode)
  | outOfRange
  | badVariant
deriving DecidableEq, Repr

namespace StackManager

variable {F L : Type}

/-- A freshly constructed stack manager. -/
def empty : StackManager F L := ⟨[], [], []⟩

/-- Template `getTop<T>`: the status and, on success, the entry assigned to the
out-parameter.  The manager itself is not touched. -/
def getTop (s : StackManager F L) (T : Kind) : ErrCode × Option (Entry F L) :=
  match s.Stack.getLast? with
  | none => (ErrCode.StackEmpty, none)
  | some e =>
    if e.kind = T then (ErrCode.Success, some e)
    else (ErrCode.StackWrongEntry, none)

/-- Template `push<T>`: the entry determines `T`. -/
def push (s : StackManager F L) (NewEntry : Entry F L) : ErrCode × StackManager F L :=
  let Stack1 := s.Stack ++ [NewEntry]
  let FrameIdx1 :=
    if NewEntry.kind = Kind.Frame then s.FrameIdx ++ [Stack1.length - 1] else s.FrameIdx
  let LabelIdx1 :=
    if NewEntry.kind = Kind.Label then s.LabelIdx ++ [Stack1.length - 1] else s.LabelIdx
  (ErrCode.Success, ⟨Stack1, FrameIdx1, LabelIdx1⟩)

/-- Template `pushValue<T>(Val)`; `Val` is given by its bit pattern. -/
def pushValue (s : StackManager F L) (T : CType) (Val : Nat) :
    ErrCode × StackManager F L :=
  match T.valType with
  | none => (ErrCode.TypeNotMatch, s)
  | some ty => (ErrCode.Success, { s with Stack := s.Stack ++ [Entry.Value ⟨ty, Val⟩] })

/-- Template `pop<T>`: the status, the entry moved into the out-parameter on
success, and the manager afterwards.  `pop_back` is `List.dropLast`; on an
empty index vector (where the C++ has no defined behaviour) it leaves the
vector empty. -/
def popT (s : StackManager F L) (T : Kind) :
    ErrCode × Option (Entry F L) × StackManager F L :=
  match s.Stack.getLast? with
  | none => (ErrCode.StackEmpty, none, s)
  | some e =>
    if e.kind = T then
      let FrameIdx1 := if T = Kind.Frame then s.FrameIdx.dropLast else s.FrameIdx
      let LabelIdx1 := if T = Kind.Label then s.LabelIdx.dropLast else s.LabelIdx
      (ErrCode.Success, some e, ⟨s.Stack.dropLast, FrameIdx1, LabelIdx1⟩)
    else (ErrCode.StackWrongEntry, none, s)

/-- The untyped `pop()`, a `switch` on the index of the top entry.  As in
`popT`, `pop_back` is `List.dropLast`. -/
def pop (s : StackManager F L) : ErrCode × StackManager F L :=
  match s.Stack.getLast? with
  | none => (ErrCode.StackEmpty, s)
  | some e =>
    match e.index with
    | 0 => (ErrCode.Success, ⟨s.Stack.dropLast, s.FrameIdx.dropLast, s.LabelIdx⟩)
    | 1 => (ErrCode.Success, ⟨s.Stack.dropLast, s.FrameIdx, s.LabelIdx.dropLast⟩)
    | _ => (ErrCode.Success, ⟨s.Stack.dropLast, s.FrameIdx, s.LabelIdx⟩)

/-- Getter `getCurrentFrame`. -/
def getCurrentFrame (s : StackManager F L) : Access F :=
  match s.FrameIdx.getLast? with
  | none => Access.err ErrCode.WrongInstanceAddress
  | some i =>
    match s.Stack.get? i with
    | none => Access.outOfRange
    | some (Entry.Frame f) => Access.ok f
    | some _ => Access.badVariant

/-- Getter `getLabelWithCount(Label, Count)`.  `Count + 1` is an `unsigned int`
sum; `LabelIdx.size() - Count - 1` is computed in `size_t` and then stored in
the `unsigned int` variable `Idx`. -/
def getLabelWithCount (s : StackManager F L) (Count : Nat) : Access L :=
  if s.LabelIdx.length % USIZE < (Count + 1) % U32 then
    Access.err ErrCode.WrongInstanceAddress
  else
    let Diff := (s.LabelIdx.length % USIZE + USIZE - Count) % USIZE
    let Idx := ((Diff + USIZE - 1) % USIZE) % U32
    match s.LabelIdx.get? Idx with
    | none => Access.outOfRange
    | some i =>
      match s.Stack.get? i with
      | none => Access.outOfRange
      | some (Entry.Label l) => Access.ok l
      | some _ => Access.badVariant

end StackManager

/-- A call of one of the stack-manager operations of `stackmgr.cpp` that can
change the manager, and `getTop`.  The getters `getCurrentFrame` and
`getLabelWithCount` only read the manager and do not occur in call sequences. -/
inductive StackOp (F L : Type)
  | push (NewEntry : Entry F L)
  | pushValue (T : CType) (Val : Nat)
  | pop
  | popT (T : Kind)
  | getTop (T : Kind)
deriving DecidableEq, Repr

namespace StackManager

variable {F L : Type}

/-- The manager after one call (whether it succeeded or failed). -/
def step (s : StackManager F L) : StackOp F L → StackManager F L
  | StackOp.push e => (s.push e).2
  | StackOp.pushValue T Val => (s.pushValue T Val).2
  | StackOp.pop => s.pop.2
  | StackOp.popT T => (s.popT T).2.2
  | StackOp.getTop _ => s

/-- The manager after a sequence of calls, oldest first. -/
def run (s : StackManager F L) (ops : List (StackOp F L)) : StackManager F L :=
  ops.foldl step s

/-- Positions of the entries of kind `K` in a stack segment whose first entry
sits at position `off`, in increasing order. -/
def positionsFrom (K : Kind) : Nat → List (Entry F L) → List Nat
  | _, [] => []
  | off, e :: es =>
    if e.kind = K then off :: positionsFrom K (off + 1) es
    else positionsFrom K (off + 1) es

/-- Positions of all entries of kind `K` on the stack, in increasing order. -/
def positions (K : Kind) (Stack : List (Entry F L)) : List Nat :=
  positionsFrom K 0 Stack

/-- The index vectors list exactly the positions of the frames and of the
labels on the stack. -/
def Inv (s : StackManager F L) : Prop :=
  s.FrameIdx = positions Kind.Frame s.Stack ∧ s.LabelIdx = positions Kind.Label s.Stack

instance (s : StackManager F L) : Decidable s.Inv := by
  unfold Inv; infer_instance

end StackManager

/-! ### Table instance: access check -/

/-- Method `checkAccessBound(Offset, Length)`: both arguments are converted to
`uint64_t` before they are added, and the sum is compared with `MinSize`. -/
def TableInstance.checkAccessBound (t : TableInstance) (Offset Length : Nat) : Bool :=
  let AccessLen : Nat := (Offset % USIZE + Length % USIZE) % USIZE
  decide (AccessLen ≤ t.MinSize)

/-! ### Host function `EEIFinish` -/

/-- The callees of `EEIFinish::run` that are declared outside the sources, taken
as given functions: `retrieveValue<uint32_t>` on an argument entry,
`ModuleInstance::getMemAddr(Idx, Addr)` and `StoreManager::getMemory(Addr, Inst)`
with their status and the value left in the out-parameter, and
`MemoryInstance::getBytes(Dest, Offset, Length)` with its status and the
destination buffer afterwards. -/
structure FinishCallees (Store ModInst MemInst : Type) where
  retrieveValue : ValueEntry → Nat
  getMemAddr : ModInst → Nat → ErrCode × Nat
  getMemory : Store → Nat → ErrCode × MemInst
  getBytes : MemInst → List Nat → Nat → Nat → ErrCode × List Nat

/-- What a call of `EEIFinish::run` can observe and change besides its
arguments: the return-data buffer of the environment (`Env.getReturnData()`),
the result vector `Res` and the store. -/
structure FinishState (Store : Type) where
  ReturnData : List Nat
  Res : List ValueEntry
  Store : Store

/-- Method `EEIFinish::run(Args, Res, Store, ModInst)`: the returned status and
the state afterwards.  The pattern `[A0, A1]` is the test `Args.size() != 2`
together with the reads `Args[0]` and `Args[1]`. -/
def EEIFinish.run {Store ModInst MemInst : Type} (C : FinishCallees Store ModInst MemInst)
    (Args : List ValueEntry) (st : FinishState Store) (Mod : ModInst) :
    ErrCode × FinishState Store :=
  match Args with
  | [A0, A1] =>
    let DataOffset := C.retrieveValue A1
    let DataLength := C.retrieveValue A0
    let st1 : FinishState Store := { st with ReturnData := [] }
    if DataLength > 0 then
      let r1 := C.getMemAddr Mod 0
      if r1.1 ≠ ErrCode.Success then (r1.1, st1)
      else
        let r2 := C.getMemory st1.Store r1.2
        if r2.1 ≠ ErrCode.Success then (r2.1, st1)
        else
          let r3 := C.getBytes r2.2 st1.ReturnData DataOffset DataLength
          if r3.1 ≠ ErrCode.Success then (r3.1, { st1 with ReturnData := r3.2 })
          else (ErrCode.Success, { st1 with ReturnData := r3.2 })
    else (ErrCode.Success, st1)
  | _ => (ErrCode.CallFunctionError, st)

/-! ## Table instance: lemmas -/

theorem U32_lt_USIZE : U32 < USIZE := by decide

theorem transformInto_length (Addrs : List Nat) :
    ∀ (E : List (Nat × Nat)) (Offset : Nat),
      (TableInstance.transformInto E Offset Addrs).length = E.length := by
  induction Addrs with
  | nil => intro E Offset; rfl
  | cons a as ih =>
    intro E Offset
    simp [TableInstance.transformInto, ih]

theorem transformInto_getElem? (Addrs : List Nat) :
    ∀ (E : List (Nat × Nat)) (Offset idx : Nat), Offset + Addrs.length ≤ E.length →
      (TableInstance.transformInto E Offset Addrs)[idx]? =
        if Offset ≤ idx ∧ idx < Offset + Addrs.length then
          (Addrs[idx - Offset]?).map (fun a => (1, a))
        else E[idx]? := by
  induction Addrs with
  | nil =>
    intro E Offset idx _
    have h : ¬ (Offset ≤ idx ∧ idx < Offset + ([] : List Nat).length) := by
      simp only [List.length_nil]; omega
    rw [if_neg h]; rfl
  | cons a as ih =>
    intro E Offset idx hfit
    simp only [List.length_cons] at hfit
    have hlen : Offset + 1 + as.length ≤ (E.set Offset (1, a)).length := by
      simp; omega
    rw [TableInstance.transformInto, ih _ _ idx hlen]
    by_cases h1 : Offset + 1 ≤ idx
    · have h2 : Offset ≤ idx := by omega
      have h3 : idx - Offset = (idx - (Offset + 1)) + 1 := by omega
      by_cases h4 : idx < Offset + 1 + as.length
      · have h5 : idx < Offset + (as.length + 1) := by omega
        simp [h1, h2, h4, h5, h3]
      · have h5 : ¬ idx < Offset + (as.length + 1) := by omega
        have h6 : Offset ≠ idx := by omega
        simp [h1, h2, h4, h5, List.getElem?_set, h6]
    · by_cases h2 : Offset = idx
      · subst h2
        have h3 : Offset < E.length := by omega
        simp [List.getElem?_set, h3]
      · have h3 : ¬ Offset ≤ idx := by omega
        simp [h1, h3, List.getElem?_set, h2]

theorem growTable_eq (t : TableInstance) (Count : Nat)
    (hlen : t.Elem.length < U32) (hc : Count < U32) :
    t.growTable Count =
      if Count + t.Elem.length > t.cap then (false, t)
      else (true, { t with Elem := t.Elem ++ List.replicate Count (0, 0) }) := by
  have h1 : t.Elem.length % USIZE = t.Elem.length :=
    Nat.mod_eq_of_lt (by unfold U32 at hlen; unfold USIZE; omega)
  have h2 : (Count + t.Elem.length) % USIZE = Count + t.Elem.length :=
    Nat.mod_eq_of_lt (by unfold U32 at hlen hc; unfold USIZE; omega)
  have h3 : TableInstance.resize t.Elem (Count + t.Elem.length)
      = t.Elem ++ List.replicate Count (0, 0) := by
    unfold TableInstance.resize
    rw [List.take_of_length_le (by omega), Nat.add_sub_cancel]
  unfold TableInstance.growTable
  simp only [h1, h2, h3]
  rfl

theorem cap_le (t : TableInstance) : t.cap ≤ 65536 := by
  unfold TableInstance.cap
  split <;> omega

theorem getSize_eq (t : TableInstance) (hlen : t.Elem.length < U32) :
    t.getSize = t.Elem.length :=
  Nat.mod_eq_of_lt hlen

/-- What one defined call preserves and establishes. -/
theorem step_inv (t t1 : TableInstance) (op : TableOp)
    (hlen : t.Elem.length < U32) (hop : op.InRange) (hstep : t.step op = some t1) :
    t1.ElType = t.ElType ∧ t1.HasMaxSize = t.HasMaxSize ∧ t1.MinSize = t.MinSize ∧
    t1.MaxSize = t.MaxSize ∧ t.Elem.length ≤ t1.Elem.length ∧
    t1.Elem.length ≤ max t.Elem.length t.cap ∧ t1.Elem.length < U32 := by
  cases op with
  | growTable Count =>
    have hc : Count < U32 := hop
    simp only [TableInstance.step, Option.some.injEq] at hstep
    rw [growTable_eq t Count hlen hc] at hstep
    by_cases hgt : Count + t.Elem.length > t.cap
    · rw [if_pos hgt] at hstep
      subst hstep
      simp [hlen]
    · rw [if_neg hgt] at hstep
      subst hstep
      have hcap := cap_le t
      simp only [List.length_append, List.length_replicate, true_and]
      refine ⟨by omega, ?_, ?_⟩
      · have : t.Elem.length + Count ≤ t.cap := by omega
        exact le_trans this (le_max_right _ _)
      · unfold U32; omega
  | setInitList Offset Addrs =>
    simp only [TableInstance.step, TableInstance.setInitList] at hstep
    split at hstep
    · simp only [Option.some.injEq] at hstep
      subst hstep
      simp [transformInto_length, hlen]
    · exact absurd hstep (by simp)

/-- What one defined call does to a slot, in terms of its write record. -/
theorem step_record (t t1 : TableInstance) (op : TableOp) (idx : Nat) (cur : Option Nat)
    (hlen : t.Elem.length < U32) (hop : op.InRange) (hstep : t.step op = some t1)
    (hslot : t.Elem.getD idx (0, 0) = slotOf cur) :
    t1.Elem.getD idx (0, 0) = slotOf (op.record idx cur) := by
  cases op with
  | growTable Count =>
    have hc : Count < U32 := hop
    simp only [TableInstance.step, Option.some.injEq] at hstep
    rw [growTable_eq t Count hlen hc] at hstep
    simp only [TableOp.record]
    by_cases hgt : Count + t.Elem.length > t.cap
    · rw [if_pos hgt] at hstep
      subst hstep
      exact hslot
    · rw [if_neg hgt] at hstep
      subst hstep
      rw [← hslot]
      simp only [List.getD_eq_getElem?_getD]
      by_cases hi : idx < t.Elem.length
      · rw [List.getElem?_append_left hi]
      · rw [List.getElem?_append_right (by omega), List.getElem?_eq_none (by omega : t.Elem.length ≤ idx)]
        by_cases hj : idx - t.Elem.length < Count
        · rw [List.getElem?_replicate_of_lt hj]; rfl
        · rw [List.getElem?_eq_none (by simp; omega)]
  | setInitList Offset Addrs =>
    simp only [TableInstance.step, TableInstance.setInitList] at hstep
    split at hstep
    · rename_i hfit
      simp only [Option.some.injEq] at hstep
      subst hstep
      simp only [TableOp.record, List.getD_eq_getElem?_getD]
      rw [transformInto_getElem? Addrs t.Elem Offset idx hfit]
      by_cases hin : Offset ≤ idx ∧ idx < Offset + Addrs.length
      · rw [if_pos hin, if_pos hin]
        have hk : idx - Offset < Addrs.length := by omega
        simp [List.get?_eq_getElem?, List.getElem?_eq_getElem hk, slotOf]
      · rw [if_neg hin, if_neg hin, ← hslot, List.getD_eq_getElem?_getD]
    · exact absurd hstep (by simp)

theorem run_inv (ops : List TableOp) :
    ∀ (t t1 : TableInstance), t.Elem.length < U32 → (∀ op ∈ ops, op.InRange) →
      t.run ops = some t1 →
      t1.ElType = t.ElType ∧ t1.HasMaxSize = t.HasMaxSize ∧ t1.MinSize = t.MinSize ∧
      t1.MaxSize = t.MaxSize ∧ t.Elem.length ≤ t1.Elem.length ∧
      t1.Elem.length ≤ max t.Elem.length t.cap ∧ t1.Elem.length < U32 := by
  induction ops with
  | nil =>
    intro t t1 hlen _ hrun
    simp only [TableInstance.run, Option.some.injEq] at hrun
    subst hrun
    simp [hlen]
  | cons op ops ih =>
    intro t t1 hlen hops hrun
    simp only [TableInstance.run] at hrun
    cases hstep : t.step op with
    | none => rw [hstep] at hrun; exact absurd hrun (by simp)
    | some t2 =>
      rw [hstep] at hrun
      obtain ⟨a1, a2, a3, a4, a5, a6, a7⟩ :=
        step_inv t t2 op hlen (hops op (List.mem_cons_self _ _)) hstep
      obtain ⟨b1, b2, b3, b4, b5, b6, b7⟩ :=
        ih t2 t1 a7 (fun o ho => hops o (List.mem_cons_of_mem _ ho)) hrun
      have hcap : t2.cap = t.cap := by
        simp [TableInstance.cap, TableInstance.getHasMax, TableInstance.getMax, a2, a4]
      refine ⟨b1.trans a1, b2.trans a2, b3.trans a3, b4.trans a4, le_trans a5 b5, ?_, b7⟩
      rw [hcap] at b6
      exact le_trans b6 (max_le a6 (le_max_right _ _))

theorem run_record (idx : Nat) (ops : List TableOp) :
    ∀ (t t1 : TableInstance) (cur : Option Nat), t.Elem.length < U32 →
      (∀ op ∈ ops, op.InRange) → t.run ops = some t1 →
      t.Elem.getD idx (0, 0) = slotOf cur →
      t1.Elem.getD idx (0, 0) = slotOf (ops.foldl (TableOp.record idx) cur) := by
  induction ops with
  | nil =>
    intro t t1 cur _ _ hrun hslot
    simp only [TableInstance.run, Option.some.injEq] at hrun
    subst hrun
    exact hslot
  | cons op ops ih =>
    intro t t1 cur hlen hops hrun hslot
    simp only [TableInstance.run] at hrun
    cases hstep : t.step op with
    | none => rw [hstep] at hrun; exact absurd hrun (by simp)
    | some t2 =>
      rw [hstep] at hrun
      have hin := hops op (List.mem_cons_self _ _)
      have h7 := (step_inv t t2 op hlen hin hstep).2.2.2.2.2.2
      exact ih t2 t1 _ h7 (fun o ho => hops o (List.mem_cons_of_mem _ ho)) hrun
        (step_record t t2 op idx cur hlen hin hstep hslot)

theorem new_length (ty : ElemType) (Lim : Limit) :
    (TableInstance.new ty Lim).Elem.length = Lim.getMin := by
  simp [TableInstance.new]

theorem new_getSize (ty : ElemType) (Lim : Limit) (h : Lim.getMin < U32) :
    (TableInstance.new ty Lim).getSize = Lim.getMin := by
  unfold TableInstance.getSize
  rw [new_length]
  exact Nat.mod_eq_of_lt h

theorem reachable_length (t : TableInstance) (h : t.Reachable) : t.Elem.length < U32 := by
  obtain ⟨ty, Lim, ops, hlim, hops, hrun⟩ := h
  have h0 : (TableInstance.new ty Lim).Elem.length < U32 := by
    rw [new_length]; exact hlim.1
  exact (run_inv ops _ t h0 hops hrun).2.2.2.2.2.2

theorem getElemAddr_eq (t : TableInstance) (Idx : Nat) :
    t.getElemAddr Idx =
      if t.Elem.length ≤ Idx then Except.error ErrCode.UndefinedElement
      else if (t.Elem.getD Idx (0, 0)).1 ≠ 0 then Except.ok (t.Elem.getD Idx (0, 0)).2
      else Except.error ErrCode.UninitializedElement := by
  unfold TableInstance.getElemAddr
  by_cases h : t.Elem.length ≤ Idx
  · simp [h]
  · have hlt : Idx < t.Elem.length := by omega
    simp [h, List.getD_eq_getElem?_getD, List.getElem?_eq_getElem hlt]

/-! ## Table instance: claims -/

/-- C1. On every table instance built by the constructor and driven by any
sequence of defined `growTable` / `setInitList` calls, and for every
index (32-bit or not): `getElemAddr` fails with `UndefinedElement` exactly when the index is at
least `getSize()`; below the size it fails with `UninitializedElement` exactly
when no `setInitList` call of the history wrote the slot; and when the slot was
written, the slot holds the last written address and `getElemAddr` returns it. -/
theorem getElemAddr_characterisation (ty : ElemType) (Lim : Limit) (ops : List TableOp)
    (t : TableInstance) (idx : Nat)
    (hlim : Lim.InRange) (hops : ∀ op ∈ ops, op.InRange)
    (hrun : (TableInstance.new ty Lim).run ops = some t) :
    (t.getElemAddr idx = Except.error ErrCode.UndefinedElement ↔ t.getSize ≤ idx) ∧
    (idx < t.getSize →
      (t.getElemAddr idx = Except.error ErrCode.UninitializedElement ↔
        lastWritten idx ops = none)) ∧
    (idx < t.getSize → ∀ a, lastWritten idx ops = some a →
      t.Elem[idx]? = some (1, a) ∧ t.getElemAddr idx = Except.ok a) := by
  have h0 : (TableInstance.new ty Lim).Elem.length < U32 := by
    rw [new_length]; exact hlim.1
  have hlen : t.Elem.length < U32 := (run_inv ops _ t h0 hops hrun).2.2.2.2.2.2
  have hbase : (TableInstance.new ty Lim).Elem.getD idx (0, 0) = slotOf none := by
    simp only [TableInstance.new, List.getD_eq_getElem?_getD, slotOf]
    by_cases hi : idx < Lim.getMin
    · rw [List.getElem?_replicate_of_lt hi]; rfl
    · rw [List.getElem?_eq_none (by simp; omega)]; rfl
  have hslot : t.Elem.getD idx (0, 0) = slotOf (lastWritten idx ops) :=
    run_record idx ops _ t none h0 hops hrun hbase
  rw [getSize_eq t hlen, getElemAddr_eq, hslot]
  refine ⟨?_, ?_, ?_⟩
  · by_cases h : t.Elem.length ≤ idx
    · simp [h]
    · cases hw : lastWritten idx ops <;> simp [h, slotOf]
  · intro hi
    have h : ¬ t.Elem.length ≤ idx := by omega
    cases hw : lastWritten idx ops <;> simp [h, slotOf]
  · intro hi a ha
    have h : ¬ t.Elem.length ≤ idx := by omega
    refine ⟨?_, by simp [h, ha, slotOf]⟩
    rw [ha, List.getD_eq_getElem?_getD, List.getElem?_eq_getElem hi] at hslot
    rw [List.getElem?_eq_getElem hi]
    simpa [slotOf] using hslot

/-- C1, the scenario of the spec, obtained from the characterisation: a fresh
table with min = 2, max = 2 answers `UninitializedElement` at index 0 and
`UndefinedElement` at index 5. -/
theorem getElemAddr_characterisation_witness :
    (TableInstance.new ElemType.FuncRef ⟨true, 2, 2⟩).getElemAddr 0
        = Except.error ErrCode.UninitializedElement ∧
    (TableInstance.new ElemType.FuncRef ⟨true, 2, 2⟩).getElemAddr 5
        = Except.error ErrCode.UndefinedElement :=
  ⟨((getElemAddr_characterisation ElemType.FuncRef ⟨true, 2, 2⟩ [] _ 0
        (by decide) (by simp) rfl).2.1 (by decide)).mpr rfl,
   (getElemAddr_characterisation ElemType.FuncRef ⟨true, 2, 2⟩ [] _ 5
        (by decide) (by simp) rfl).1.mpr (by decide)⟩

/-- C2. On every table instance that can exist and for every 32-bit count,
`growTable(count)` returns true exactly when `getSize() + count`, as an exact
natural-number sum, is at most the cap `min(declared max, 65536)` (or `65536`
when no maximum is declared). -/
theorem growTable_true_iff (t : TableInstance) (Count : Nat)
    (hreach : t.Reachable) (hc : Count < U32) :
    (t.growTable Count).1 = true ↔
      t.getSize + Count ≤ (if t.getHasMax then min t.getMax 65536 else 65536) := by
  have hlen := reachable_length t hreach
  rw [growTable_eq t Count hlen hc, getSize_eq t hlen]
  change _ ↔ t.Elem.length + Count ≤ t.cap
  by_cases hgt : Count + t.Elem.length > t.cap
  · rw [if_pos hgt]
    constructor
    · intro h; exact absurd h (by simp)
    · intro h; omega
  · rw [if_neg hgt]
    constructor
    · intro _; omega
    · intro _; rfl

/-- C2, the scenario of the spec: on a table with min = 0, max = 10,
`grow(5)` succeeds (by the criterion above) and gives size 5, then `grow(6)`
fails and leaves size 5, then `grow(5)` succeeds and gives size 10. -/
theorem growTable_true_iff_witness :
    ((TableInstance.new ElemType.FuncRef ⟨true, 0, 10⟩).growTable 5).1 = true ∧
    ((TableInstance.new ElemType.FuncRef ⟨true, 0, 10⟩).growTable 5).2.getSize = 5 ∧
    (((TableInstance.new ElemType.FuncRef ⟨true, 0, 10⟩).growTable 5).2.growTable 6).1
      = false ∧
    (((TableInstance.new ElemType.FuncRef ⟨true, 0, 10⟩).growTable 5).2.growTable 6).2.getSize
      = 5 ∧
    ((((TableInstance.new ElemType.FuncRef ⟨true, 0, 10⟩).growTable 5).2.growTable 6).2.growTable
      5).1 = true ∧
    ((((TableInstance.new ElemType.FuncRef ⟨true, 0, 10⟩).growTable 5).2.growTable 6).2.growTable
      5).2.getSize = 10 :=
  ⟨(growTable_true_iff (TableInstance.new ElemType.FuncRef ⟨true, 0, 10⟩) 5
      ⟨ElemType.FuncRef, ⟨true, 0, 10⟩, [], by decide, by simp, rfl⟩ (by decide)).mpr
      (by decide),
   by decide, by decide, by decide, by decide, by decide⟩

/-- C3. On every table instance that can exist and for every 32-bit count `k`:
when `growTable(k)` returns true the slot vector is the old one followed by `k`
slots `{0, 0}`, so the size becomes the old size plus `k` and every index below
the old size keeps its slot and its `getElemAddr` result; when it returns false
the instance is unchanged. -/
theorem growTable_frame (t : TableInstance) (k : Nat)
    (hreach : t.Reachable) (hk : k < U32) :
    ((t.growTable k).1 = true →
      (t.growTable k).2.getSize = t.getSize + k ∧
      (t.growTable k).2.Elem = t.Elem ++ List.replicate k (0, 0) ∧
      ∀ idx, idx < t.getSize →
        (t.growTable k).2.Elem[idx]? = t.Elem[idx]? ∧
        (t.growTable k).2.getElemAddr idx = t.getElemAddr idx) ∧
    ((t.growTable k).1 = false → (t.growTable k).2 = t) := by
  have hlen := reachable_length t hreach
  have hcap := cap_le t
  rw [growTable_eq t k hlen hk, getSize_eq t hlen]
  by_cases hgt : k + t.Elem.length > t.cap
  · rw [if_pos hgt]
    exact ⟨fun h => absurd h (by simp), fun _ => rfl⟩
  · rw [if_neg hgt]
    refine ⟨fun _ => ⟨?_, rfl, ?_⟩, fun h => absurd h (by simp)⟩
    · unfold TableInstance.getSize
      simp only [List.length_append, List.length_replicate]
      exact Nat.mod_eq_of_lt (by unfold U32; omega)
    · intro idx hi
      have hget : (t.Elem ++ List.replicate k ((0 : Nat), (0 : Nat)))[idx]? = t.Elem[idx]? :=
        List.getElem?_append_left hi
      refine ⟨hget, ?_⟩
      rw [getElemAddr_eq, getElemAddr_eq]
      have h1 : ¬ t.Elem.length ≤ idx := by omega
      have h2 : ¬ (t.Elem ++ List.replicate k ((0 : Nat), (0 : Nat))).length ≤ idx := by
        simp only [List.length_append, List.length_replicate]; omega
      simp only [List.getD_eq_getElem?_getD, hget, if_neg h1, if_neg h2]

/-- C3 at a concrete table: min = 1, max = 3, slot 0 initialised with address 7;
`growTable(2)` succeeds and `growTable(3)` fails. -/
theorem growTable_frame_witness :
    ((TableInstance.mk ElemType.FuncRef true 1 3 [(1, 7)]).growTable 2).2.getSize = 3 ∧
    ((TableInstance.mk ElemType.FuncRef true 1 3 [(1, 7)]).growTable 2).2.getElemAddr 0
      = Except.ok 7 ∧
    ((TableInstance.mk ElemType.FuncRef true 1 3 [(1, 7)]).growTable 3).2
      = TableInstance.mk ElemType.FuncRef true 1 3 [(1, 7)] :=
  ⟨((growTable_frame (TableInstance.mk ElemType.FuncRef true 1 3 [(1, 7)]) 2
      ⟨ElemType.FuncRef, ⟨true, 1, 3⟩, [TableOp.setInitList 0 [7]], by decide, by decide, rfl⟩
      (by decide)).1 (by decide)).1,
   (((growTable_frame (TableInstance.mk ElemType.FuncRef true 1 3 [(1, 7)]) 2
      ⟨ElemType.FuncRef, ⟨true, 1, 3⟩, [TableOp.setInitList 0 [7]], by decide, by decide, rfl⟩
      (by decide)).1 (by decide)).2.2 0 (by decide)).2.trans rfl,
   (growTable_frame (TableInstance.mk ElemType.FuncRef true 1 3 [(1, 7)]) 3
      ⟨ElemType.FuncRef, ⟨true, 1, 3⟩, [TableOp.setInitList 0 [7]], by decide, by decide, rfl⟩
      (by decide)).2 (by decide)⟩

/-- C4 as stated fails: the constructor allocates `min` slots without comparing
`min` with the cap.  A table built from the limit min = 65537 without maximum
has size 65537, above `min(65536, 65536)`. -/
theorem table_size_le_cap_counterexample :
    Limit.InRange ⟨false, 65537, 0⟩ ∧
    (TableInstance.new ElemType.FuncRef ⟨false, 65537, 0⟩).run []
      = some (TableInstance.new ElemType.FuncRef ⟨false, 65537, 0⟩) ∧
    (TableInstance.new ElemType.FuncRef ⟨false, 65537, 0⟩).getSize = 65537 ∧
    ¬ ((TableInstance.new ElemType.FuncRef ⟨false, 65537, 0⟩).getSize ≤
        min (if (TableInstance.new ElemType.FuncRef ⟨false, 65537, 0⟩).getHasMax
             then (TableInstance.new ElemType.FuncRef ⟨false, 65537, 0⟩).getMax
             else 65536) 65536) := by
  have hsize : (TableInstance.new ElemType.FuncRef ⟨false, 65537, 0⟩).getSize = 65537 :=
    new_getSize ElemType.FuncRef ⟨false, 65537, 0⟩ (by decide)
  refine ⟨by decide, rfl, hsize, ?_⟩
  rw [hsize]
  show ¬ (65537 ≤ min (if false = true then 0 else 65536) 65536)
  decide

/-- C4, amended.  For every table instance built from a limit and driven by any
sequence of defined `growTable` / `setInitList` calls: `getMin() ≤ getSize()`,
`getSize()` is at most the larger of `getMin()` and the cap
`min(max if declared else 65536, 65536)`, and therefore `getSize()` is at most
the cap whenever the declared minimum is. -/
theorem table_size_bounds (ty : ElemType) (Lim : Limit) (ops : List TableOp)
    (t : TableInstance)
    (hlim : Lim.InRange) (hops : ∀ op ∈ ops, op.InRange)
    (hrun : (TableInstance.new ty Lim).run ops = some t) :
    t.getMin = Lim.getMin ∧
    t.getMin ≤ t.getSize ∧
    t.getSize ≤ max t.getMin (min (if t.getHasMax then t.getMax else 65536) 65536) ∧
    (t.getMin ≤ min (if t.getHasMax then t.getMax else 65536) 65536 →
      t.getSize ≤ min (if t.getHasMax then t.getMax else 65536) 65536) := by
  have h0 : (TableInstance.new ty Lim).Elem.length < U32 := by
    rw [new_length]; exact hlim.1
  obtain ⟨_, a2, a3, a4, a5, a6, a7⟩ := run_inv ops _ t h0 hops hrun
  rw [new_length] at a5 a6
  have hmin : t.getMin = Lim.getMin := a3
  have hcap : min (if t.getHasMax then t.getMax else 65536) 65536
      = (TableInstance.new ty Lim).cap := by
    simp only [TableInstance.cap, TableInstance.getHasMax, TableInstance.getMax, a2, a4]
    split <;> simp
  rw [getSize_eq t a7, hcap, hmin]
  refine ⟨rfl, a5, a6, fun h => ?_⟩
  exact le_trans a6 (max_le h (le_refl _))

/-- C4, amended, at a concrete table: min = 1, max = 3, after a write, a
successful and a failing grow. -/
theorem table_size_bounds_witness :
    (TableInstance.mk ElemType.FuncRef true 1 3 [(1, 7), (0, 0), (0, 0)]).getMin ≤
      (TableInstance.mk ElemType.FuncRef true 1 3 [(1, 7), (0, 0), (0, 0)]).getSize ∧
    (TableInstance.mk ElemType.FuncRef true 1 3 [(1, 7), (0, 0), (0, 0)]).getSize ≤ 3 :=
  have h := table_size_bounds ElemType.FuncRef ⟨true, 1, 3⟩
    [TableOp.setInitList 0 [7], TableOp.growTable 2, TableOp.growTable 1]
    (TableInstance.mk ElemType.FuncRef true 1 3 [(1, 7), (0, 0), (0, 0)])
    (by decide) (by decide) rfl
  ⟨h.2.1, h.2.2.2 (by decide)⟩

/-! ## Stack manager: lemmas -/

section StackLemmas

variable {F L : Type}

theorem positionsFrom_append (K : Kind) (e : Entry F L) (es : List (Entry F L)) :
    ∀ off : Nat, StackManager.positionsFrom K off (es ++ [e]) =
      StackManager.positionsFrom K off es ++ (if e.kind = K then [off + es.length] else []) := by
  induction es with
  | nil => intro off; by_cases h : e.kind = K <;> simp [StackManager.positionsFrom, h]
  | cons a as ih =>
    intro off
    have hoff : off + 1 + as.length = off + (as.length + 1) := by omega
    by_cases h : a.kind = K <;>
      simp [StackManager.positionsFrom, h, ih (off + 1), hoff]

theorem positions_append (K : Kind) (e : Entry F L) (es : List (Entry F L)) :
    StackManager.positions K (es ++ [e]) =
      StackManager.positions K es ++ (if e.kind = K then [es.length] else []) := by
  unfold StackManager.positions
  rw [positionsFrom_append, Nat.zero_add]

theorem mem_positionsFrom (K : Kind) (es : List (Entry F L)) :
    ∀ (off i : Nat), i ∈ StackManager.positionsFrom K off es →
      off ≤ i ∧ ∃ e, es[i - off]? = some e ∧ e.kind = K := by
  induction es with
  | nil => intro off i h; simp [StackManager.positionsFrom] at h
  | cons a as ih =>
    intro off i h
    have htail : i ∈ StackManager.positionsFrom K (off + 1) as →
        off ≤ i ∧ ∃ e, (a :: as)[i - off]? = some e ∧ e.kind = K := by
      intro h1
      obtain ⟨hle, e, he, hk⟩ := ih (off + 1) i h1
      have hsub : i - off = (i - (off + 1)) + 1 := by omega
      exact ⟨by omega, e, by rw [hsub]; simpa using he, hk⟩
    by_cases hk : a.kind = K
    · simp only [StackManager.positionsFrom, hk, if_true, List.mem_cons] at h
      rcases h with h | h
      · subst h
        exact ⟨le_refl _, a, by simp, hk⟩
      · exact htail h
    · simp only [StackManager.positionsFrom, hk, if_false] at h
      exact htail h

theorem positionsFrom_complete (K : Kind) (es : List (Entry F L)) :
    ∀ (off j : Nat) (e : Entry F L), es[j]? = some e → e.kind = K →
      off + j ∈ StackManager.positionsFrom K off es := by
  induction es with
  | nil => intro off j e h; simp at h
  | cons a as ih =>
    intro off j e h hk
    cases j with
    | zero =>
      simp only [List.getElem?_cons_zero, Option.some.injEq] at h
      subst h
      simp [StackManager.positionsFrom, hk]
    | succ j =>
      simp only [List.getElem?_cons_succ] at h
      have := ih (off + 1) j e h hk
      have hoff : off + (j + 1) = off + 1 + j := by omega
      rw [hoff]
      by_cases hka : a.kind = K
      · simp only [StackManager.positionsFrom, hka, if_true]
        exact List.mem_cons_of_mem _ this
      · simp only [StackManager.positionsFrom, hka, if_false]
        exact this

theorem positionsFrom_pairwise (K : Kind) (es : List (Entry F L)) :
    ∀ off : Nat, (StackManager.positionsFrom K off es).Pairwise (fun a b => a < b) := by
  induction es with
  | nil => intro off; simp [StackManager.positionsFrom]
  | cons a as ih =>
    intro off
    by_cases hk : a.kind = K
    · simp only [StackManager.positionsFrom, hk, if_true, List.pairwise_cons]
      refine ⟨fun i hi => ?_, ih (off + 1)⟩
      have := (mem_positionsFrom K as (off + 1) i hi).1
      omega
    · simp only [StackManager.positionsFrom, hk, if_false]
      exact ih (off + 1)

theorem le_getLast_of_pairwise (l : List Nat) (p : Nat)
    (hsorted : l.Pairwise (fun a b => a < b)) (hlast : l.getLast? = some p) :
    ∀ x ∈ l, x ≤ p := by
  induction l with
  | nil => intro x hx; simp at hx
  | cons a as ih =>
    intro x hx
    rw [List.pairwise_cons] at hsorted
    cases as with
    | nil =>
      simp only [List.getLast?_singleton, Option.some.injEq] at hlast
      simp only [List.mem_singleton] at hx
      omega
    | cons b bs =>
      rw [List.getLast?_cons_cons] at hlast
      have hp : p ∈ b :: bs := List.mem_of_getLast?_eq_some hlast
      rcases List.mem_cons.mp hx with h | h
      · have := hsorted.1 p hp
        omega
      · exact ih hsorted.2 hlast x h

theorem stack_eq_dropLast_append (stk : List (Entry F L)) (e : Entry F L)
    (h : stk.getLast? = some e) : stk = stk.dropLast ++ [e] :=
  (List.dropLast_append_getLast? e (by simp [h])).symm

theorem inv_split (s : StackManager F L) (e : Entry F L)
    (hinv : s.Inv) (hlast : s.Stack.getLast? = some e) :
    s.FrameIdx = StackManager.positions Kind.Frame s.Stack.dropLast ++
        (if e.kind = Kind.Frame then [s.Stack.dropLast.length] else []) ∧
    s.LabelIdx = StackManager.positions Kind.Label s.Stack.dropLast ++
        (if e.kind = Kind.Label then [s.Stack.dropLast.length] else []) := by
  obtain ⟨hF, hL⟩ := hinv
  have hs := stack_eq_dropLast_append s.Stack e hlast
  constructor
  · rw [hF]; conv => lhs; rw [hs]
    exact positions_append _ _ _
  · rw [hL]; conv => lhs; rw [hs]
    exact positions_append _ _ _

theorem inv_empty : (StackManager.empty : StackManager F L).Inv := by
  simp [StackManager.Inv, StackManager.empty, StackManager.positions,
    StackManager.positionsFrom]

theorem inv_push (s : StackManager F L) (e : Entry F L) (hinv : s.Inv) :
    (s.push e).2.Inv := by
  obtain ⟨hF, hL⟩ := hinv
  unfold StackManager.push StackManager.Inv
  simp only [positions_append, List.length_append, List.length_singleton,
    Nat.add_sub_cancel]
  constructor
  · by_cases h : e.kind = Kind.Frame <;> simp [h, hF]
  · by_cases h : e.kind = Kind.Label <;> simp [h, hL]

theorem inv_pushValue (s : StackManager F L) (T : CType) (Val : Nat) (hinv : s.Inv) :
    (s.pushValue T Val).2.Inv := by
  obtain ⟨hF, hL⟩ := hinv
  unfold StackManager.pushValue
  cases T.valType with
  | none => exact ⟨hF, hL⟩
  | some ty =>
    simp only [StackManager.Inv, positions_append, Entry.kind]
    simp [hF, hL]

theorem inv_pop (s : StackManager F L) (hinv : s.Inv) : s.pop.2.Inv := by
  unfold StackManager.pop
  cases hlast : s.Stack.getLast? with
  | none => exact hinv
  | some e =>
    obtain ⟨hF, hL⟩ := inv_split s e hinv hlast
    cases e <;>
      simp [Entry.index, Entry.kind, StackManager.Inv] at hF hL ⊢ <;>
      simp [hF, hL]

theorem inv_popT (s : StackManager F L) (T : Kind) (hinv : s.Inv) : (s.popT T).2.2.Inv := by
  unfold StackManager.popT
  cases hlast : s.Stack.getLast? with
  | none => exact hinv
  | some e =>
    obtain ⟨hF, hL⟩ := inv_split s e hinv hlast
    by_cases hk : e.kind = T
    · subst hk
      cases e <;>
        simp [Entry.kind, StackManager.Inv] at hF hL ⊢ <;>
        simp [hF, hL]
    · simp only [hk, if_false]
      exact hinv

theorem inv_step (s : StackManager F L) (op : StackOp F L) (hinv : s.Inv) :
    (s.step op).Inv := by
  cases op with
  | push e => exact inv_push s e hinv
  | pushValue T Val => exact inv_pushValue s T Val hinv
  | pop => exact inv_pop s hinv
  | popT T => exact inv_popT s T hinv
  | getTop T => exact hinv

theorem inv_run (ops : List (StackOp F L)) :
    ∀ s : StackManager F L, s.Inv → (s.run ops).Inv := by
  induction ops with
  | nil => intro s h; exact h
  | cons op ops ih =>
    intro s h
    exact ih (s.step op) (inv_step s op h)

theorem getCurrentFrame_cases (s : StackManager F L) (hinv : s.Inv) :
    (s.FrameIdx = [] ∧ (∀ e ∈ s.Stack, e.kind ≠ Kind.Frame) ∧
      s.getCurrentFrame = Access.err ErrCode.WrongInstanceAddress) ∨
    (∃ p f, s.FrameIdx.getLast? = some p ∧ s.Stack[p]? = some (Entry.Frame f) ∧
      s.getCurrentFrame = Access.ok f ∧
      ∀ j e, p < j → s.Stack[j]? = some e → e.kind ≠ Kind.Frame) := by
  have hF := hinv.1
  cases hlast : s.FrameIdx.getLast? with
  | none =>
    left
    have hnil : s.FrameIdx = [] := List.getLast?_eq_none_iff.mp hlast
    refine ⟨hnil, fun e he hk => ?_, by simp [StackManager.getCurrentFrame, hlast]⟩
    obtain ⟨j, hj⟩ := List.getElem?_of_mem he
    have hmem := positionsFrom_complete Kind.Frame s.Stack 0 j e hj hk
    rw [show StackManager.positionsFrom Kind.Frame 0 s.Stack
        = StackManager.positions Kind.Frame s.Stack from rfl, ← hF, hnil] at hmem
    simp at hmem
  | some p =>
    right
    have hp : p ∈ StackManager.positionsFrom Kind.Frame 0 s.Stack := by
      have := List.mem_of_getLast?_eq_some hlast
      rw [hF] at this
      exact this
    obtain ⟨_, e, he, hk⟩ := mem_positionsFrom Kind.Frame s.Stack 0 p hp
    rw [Nat.sub_zero] at he
    cases e with
    | Label l => exact absurd hk (by simp [Entry.kind])
    | Value v => exact absurd hk (by simp [Entry.kind])
    | Frame f =>
      refine ⟨p, f, rfl, he, by simp [StackManager.getCurrentFrame, hlast, he], ?_⟩
      intro j e hpj hj hkj
      have hmem := positionsFrom_complete Kind.Frame s.Stack 0 j e hj hkj
      rw [Nat.zero_add] at hmem
      have hsorted : s.FrameIdx.Pairwise (fun a b => a < b) := by
        rw [hF]; exact positionsFrom_pairwise _ _ 0
      have hjmem : j ∈ s.FrameIdx := by rw [hF]; exact hmem
      have := le_getLast_of_pairwise s.FrameIdx p hsorted hlast j hjmem
      omega

end StackLemmas

/-! ## Stack manager: claims -/

/-- C5. After any sequence of `push`, `pushValue`, `pop()`, `pop<T>` and
`getTop<T>` calls on the empty stack manager, successful or failing, every
index in `FrameIdx` is a valid stack position holding a Frame entry, every
index in `LabelIdx` is a valid stack position holding a Label entry, and both
index vectors are strictly increasing. -/
theorem sidecars_point_at_their_kind {F L : Type} (ops : List (StackOp F L)) :
    (∀ i ∈ ((StackManager.empty : StackManager F L).run ops).FrameIdx,
      i < ((StackManager.empty : StackManager F L).run ops).Stack.length ∧
      ∃ f, ((StackManager.empty : StackManager F L).run ops).Stack[i]? = some (Entry.Frame f)) ∧
    (∀ i ∈ ((StackManager.empty : StackManager F L).run ops).LabelIdx,
      i < ((StackManager.empty : StackManager F L).run ops).Stack.length ∧
      ∃ l, ((StackManager.empty : StackManager F L).run ops).Stack[i]? = some (Entry.Label l)) ∧
    ((StackManager.empty : StackManager F L).run ops).FrameIdx.Pairwise (fun a b => a < b) ∧
    ((StackManager.empty : StackManager F L).run ops).LabelIdx.Pairwise (fun a b => a < b) := by
  obtain ⟨hF, hL⟩ := inv_run ops (StackManager.empty : StackManager F L) inv_empty
  generalize (StackManager.empty : StackManager F L).run ops = s at hF hL
  rw [hF, hL]
  refine ⟨fun i hi => ?_, fun i hi => ?_, positionsFrom_pairwise _ _ 0,
    positionsFrom_pairwise _ _ 0⟩
  · obtain ⟨_, e, he, hk⟩ := mem_positionsFrom Kind.Frame s.Stack 0 i hi
    rw [Nat.sub_zero] at he
    have hlt : i < s.Stack.length := by
      by_contra hge
      rw [List.getElem?_eq_none (by omega)] at he
      exact absurd he (by simp)
    cases e with
    | Frame f => exact ⟨hlt, f, he⟩
    | Label l => exact absurd hk (by simp [Entry.kind])
    | Value v => exact absurd hk (by simp [Entry.kind])
  · obtain ⟨_, e, he, hk⟩ := mem_positionsFrom Kind.Label s.Stack 0 i hi
    rw [Nat.sub_zero] at he
    have hlt : i < s.Stack.length := by
      by_contra hge
      rw [List.getElem?_eq_none (by omega)] at he
      exact absurd he (by simp)
    cases e with
    | Frame f => exact absurd hk (by simp [Entry.kind])
    | Label l => exact ⟨hlt, l, he⟩
    | Value v => exact absurd hk (by simp [Entry.kind])

/-- C5 on a concrete run with failing calls in it: a `pop<FrameEntry>` on a
Label top, a `pushValue` of an unsupported type and pops on the empty stack. -/
theorem sidecars_point_at_their_kind_witness :
    ((StackManager.empty : StackManager Nat Nat).run
      [StackOp.pop, StackOp.push (Entry.Frame 1), StackOp.push (Entry.Label 2),
       StackOp.popT Kind.Frame, StackOp.pushValue CType.other 0,
       StackOp.pushValue CType.uint32_t 9, StackOp.push (Entry.Label 3),
       StackOp.getTop Kind.Value]).LabelIdx = [1, 3] ∧
    ∀ i ∈ [1, 3], ∃ l, ((StackManager.empty : StackManager Nat Nat).run
      [StackOp.pop, StackOp.push (Entry.Frame 1), StackOp.push (Entry.Label 2),
       StackOp.popT Kind.Frame, StackOp.pushValue CType.other 0,
       StackOp.pushValue CType.uint32_t 9, StackOp.push (Entry.Label 3),
       StackOp.getTop Kind.Value]).Stack[i]? = some (Entry.Label l) :=
  ⟨by decide, fun i hi =>
    ((sidecars_point_at_their_kind
      [StackOp.pop, StackOp.push (Entry.Frame 1), StackOp.push (Entry.Label 2),
       StackOp.popT Kind.Frame, StackOp.pushValue CType.other 0,
       StackOp.pushValue CType.uint32_t 9, StackOp.push (Entry.Label 3),
       StackOp.getTop Kind.Value]).2.1 i hi).2⟩

/-- C6. In every stack state, for each of the four value types and every bit
pattern (NaN patterns included): `pushValue` succeeds, the `pop<ValueEntry>`
that follows succeeds and hands back a Value entry with exactly that type and
those bits, and the stack and both index vectors are then what they were
before the push. -/
theorem pushValue_pop_roundtrip {F L : Type} (s : StackManager F L) (T : CType)
    (ty : ValType) (Val : Nat) (hT : T.valType = some ty) :
    (s.pushValue T Val).1 = ErrCode.Success ∧
    (s.pushValue T Val).2.popT Kind.Value =
      (ErrCode.Success, some (Entry.Value ⟨ty, Val⟩), s) := by
  cases s with
  | mk Stack FrameIdx LabelIdx =>
    simp [StackManager.pushValue, hT, StackManager.popT, Entry.kind]

/-- C6 at a concrete input: the `float` with the NaN bit pattern `0x7FC00001`
pushed on a stack that holds a frame and a label. -/
theorem pushValue_pop_roundtrip_witness :
    ((StackManager.mk [Entry.Frame 1, Entry.Label 2] [0] [1] :
        StackManager Nat Nat).pushValue CType.float 2143289345).2.popT Kind.Value =
      (ErrCode.Success, some (Entry.Value ⟨ValType.F32, 2143289345⟩),
        (StackManager.mk [Entry.Frame 1, Entry.Label 2] [0] [1] : StackManager Nat Nat)) :=
  (pushValue_pop_roundtrip _ CType.float ValType.F32 2143289345 rfl).2

/-- C7. In every stack state and for every kind `K`: `pop<K>` succeeds exactly
when the stack is non-empty with a top entry of kind `K` (and then hands that
entry back), returns `StackEmpty` exactly when the stack is empty and
`StackWrongEntry` exactly when the stack is non-empty with a top entry of
another kind; whenever it does not succeed, the stack and both index vectors
are unchanged and nothing is handed back. -/
theorem popT_status {F L : Type} (s : StackManager F L) (K : Kind) :
    ((s.popT K).1 = ErrCode.Success ↔ ∃ e, s.Stack.getLast? = some e ∧ e.kind = K) ∧
    ((s.popT K).1 = ErrCode.StackEmpty ↔ s.Stack = []) ∧
    ((s.popT K).1 = ErrCode.StackWrongEntry ↔
      ∃ e, s.Stack.getLast? = some e ∧ e.kind ≠ K) ∧
    ((s.popT K).1 = ErrCode.Success → (s.popT K).2.1 = s.Stack.getLast?) ∧
    ((s.popT K).1 ≠ ErrCode.Success → (s.popT K).2.2 = s ∧ (s.popT K).2.1 = none) := by
  unfold StackManager.popT
  cases hlast : s.Stack.getLast? with
  | none =>
    have hnil : s.Stack = [] := List.getLast?_eq_none_iff.mp hlast
    simp [hnil]
  | some e =>
    have hne : s.Stack ≠ [] := by
      intro h; rw [h] at hlast; simp at hlast
    by_cases hk : e.kind = K <;> simp [hk, hne]

/-- C7 at concrete inputs: `pop<LabelEntry>` on a Frame top and on the empty
stack. -/
theorem popT_status_witness :
    ((StackManager.mk [Entry.Frame 1] [0] [] : StackManager Nat Nat).popT Kind.Label).2.2
      = StackManager.mk [Entry.Frame 1] [0] [] ∧
    ((StackManager.empty : StackManager Nat Nat).popT Kind.Value).2.2 = StackManager.empty :=
  ⟨((popT_status (StackManager.mk [Entry.Frame 1] [0] [] : StackManager Nat Nat)
      Kind.Label).2.2.2.2 (by decide)).1,
   ((popT_status (StackManager.empty : StackManager Nat Nat) Kind.Value).2.2.2.2
      (by decide)).1⟩

/-- C8. In every stack state the untyped `pop()` returns `StackEmpty` and
changes nothing when the stack is empty.  Otherwise it succeeds, the new stack
is the old one without its last entry, `FrameIdx` has its last element removed
when the removed entry is a Frame and is unchanged otherwise, and likewise
`LabelIdx` for a Label.  In a state whose index vectors list the frame and
label positions, the element removed from the index vector is the position of
the removed entry, `Stack.size() - 1`. -/
theorem pop_effect {F L : Type} (s : StackManager F L) :
    (s.Stack = [] → s.pop = (ErrCode.StackEmpty, s)) ∧
    (∀ e, s.Stack.getLast? = some e →
      s.pop.1 = ErrCode.Success ∧
      s.pop.2.Stack = s.Stack.dropLast ∧
      s.Stack = s.pop.2.Stack ++ [e] ∧
      s.pop.2.FrameIdx = (if e.kind = Kind.Frame then s.FrameIdx.dropLast else s.FrameIdx) ∧
      s.pop.2.LabelIdx = (if e.kind = Kind.Label then s.LabelIdx.dropLast else s.LabelIdx) ∧
      (s.Inv → e.kind = Kind.Frame →
        s.FrameIdx = s.pop.2.FrameIdx ++ [s.Stack.length - 1]) ∧
      (s.Inv → e.kind = Kind.Label →
        s.LabelIdx = s.pop.2.LabelIdx ++ [s.Stack.length - 1])) := by
  constructor
  · intro hnil
    simp [StackManager.pop, hnil]
  · intro e hlast
    have hs := stack_eq_dropLast_append s.Stack e hlast
    have hpop : s.pop.1 = ErrCode.Success ∧ s.pop.2.Stack = s.Stack.dropLast ∧
        s.pop.2.FrameIdx = (if e.kind = Kind.Frame then s.FrameIdx.dropLast else s.FrameIdx) ∧
        s.pop.2.LabelIdx = (if e.kind = Kind.Label then s.LabelIdx.dropLast else s.LabelIdx) := by
      unfold StackManager.pop
      rw [hlast]
      cases e <;> simp [Entry.index, Entry.kind]
    obtain ⟨h1, h2, h3, h4⟩ := hpop
    refine ⟨h1, h2, by rw [h2]; exact hs, h3, h4, ?_, ?_⟩
    · intro hinv hk
      have hF := (inv_split s e hinv hlast).1
      rw [h3, if_pos hk]
      rw [if_pos hk] at hF
      rw [List.length_dropLast] at hF
      conv => rhs; rw [hF]
      rw [List.dropLast_concat]
      exact hF
    · intro hinv hk
      have hL := (inv_split s e hinv hlast).2
      rw [h4, if_pos hk]
      rw [if_pos hk] at hL
      rw [List.length_dropLast] at hL
      conv => rhs; rw [hL]
      rw [List.dropLast_concat]
      exact hL

/-- C8 at a concrete state: a Label on top of a Frame; `pop()` removes the
Label and the last `LabelIdx` element and leaves `FrameIdx` alone. -/
theorem pop_effect_witness :
    (StackManager.mk [Entry.Frame 1, Entry.Label 2] [0] [1] : StackManager Nat Nat).pop.2.Stack
      = [Entry.Frame 1] ∧
    (StackManager.mk [Entry.Frame 1, Entry.Label 2] [0] [1] : StackManager Nat Nat).pop.2.FrameIdx
      = [0] ∧
    ([1] : List Nat)
      = (StackManager.mk [Entry.Frame 1, Entry.Label 2] [0] [1] :
          StackManager Nat Nat).pop.2.LabelIdx ++ [2 - 1] :=
  have h := (pop_effect (StackManager.mk [Entry.Frame 1, Entry.Label 2] [0] [1] :
    StackManager Nat Nat)).2 (Entry.Label 2) rfl
  ⟨h.2.1, h.2.2.2.1, h.2.2.2.2.2.2 (by decide) rfl⟩

/-- C9, the code at the failing input.  With `Count = 2^32 - 1` the guard
`LabelIdx.size() < Count + 1` compares against `0` and never fires, and the
index `LabelIdx.size() - Count - 1`, truncated to 32 bits, is `LabelIdx.size()`:
on the empty manager and on a manager holding one label the read of `LabelIdx`
is out of range instead of an error return. -/
theorem getLabelWithCount_max_count :
    (StackManager.empty : StackManager Nat Nat).getLabelWithCount 4294967295
      = Access.outOfRange ∧
    (StackManager.mk [Entry.Label 7] [] [0] : StackManager Nat Nat).getLabelWithCount 4294967295
      = Access.outOfRange ∧
    (StackManager.mk [Entry.Label 7] [] [0] : StackManager Nat Nat).getLabelWithCount 4294967294
      = Access.err ErrCode.WrongInstanceAddress ∧
    (StackManager.mk [Entry.Label 7] [] [0] : StackManager Nat Nat).getLabelWithCount 0
      = Access.ok 7 := by
  decide

/-- C10. In every state reached from the empty stack manager by a sequence of
its calls: `getCurrentFrame` returns its error exactly when no stack entry is a
Frame; when some entry is a Frame it succeeds with the Frame entry at position
`FrameIdx.back()`, above which the stack holds no Frame entry; and it never
reads outside the stack nor an entry of another kind. -/
theorem getCurrentFrame_topmost {F L : Type} (ops : List (StackOp F L))
    (s : StackManager F L) (hs : (StackManager.empty : StackManager F L).run ops = s) :
    (s.getCurrentFrame = Access.err ErrCode.WrongInstanceAddress ↔
      ∀ e ∈ s.Stack, e.kind ≠ Kind.Frame) ∧
    ((∃ e ∈ s.Stack, e.kind = Kind.Frame) →
      ∃ p f, s.FrameIdx.getLast? = some p ∧ s.Stack[p]? = some (Entry.Frame f) ∧
        s.getCurrentFrame = Access.ok f ∧
        ∀ j e, p < j → s.Stack[j]? = some e → e.kind ≠ Kind.Frame) ∧
    s.getCurrentFrame ≠ Access.outOfRange ∧
    s.getCurrentFrame ≠ Access.badVariant := by
  have hinv : s.Inv := by
    rw [← hs]; exact inv_run ops _ inv_empty
  rcases getCurrentFrame_cases s hinv with ⟨_, hno, herr⟩ | ⟨p, f, hp, hf, hok, htop⟩
  · rw [herr]
    refine ⟨⟨fun _ => hno, fun _ => rfl⟩, ?_, by simp, by simp⟩
    rintro ⟨e, he, hk⟩
    exact absurd hk (hno e he)
  · rw [hok]
    refine ⟨⟨fun h => absurd h (by simp), fun hno => ?_⟩,
      fun _ => ⟨p, f, hp, hf, rfl, htop⟩, by simp, by simp⟩
    exact absurd rfl (hno (Entry.Frame f) (List.getElem?_mem hf))

/-- C10 on a concrete run: two frames pushed, the upper one popped again; the
current frame is the lower one. -/
theorem getCurrentFrame_topmost_witness :
    (StackManager.mk [Entry.Frame 1, Entry.Value ⟨ValType.I32, 5⟩] [0] [] :
      StackManager Nat Nat).getCurrentFrame = Access.ok 1 ∧
    ((StackManager.mk [Entry.Frame 1, Entry.Value ⟨ValType.I32, 5⟩] [0] [] :
      StackManager Nat Nat).getCurrentFrame = Access.err ErrCode.WrongInstanceAddress ↔
      ∀ e ∈ [(Entry.Frame 1 : Entry Nat Nat), Entry.Value ⟨ValType.I32, 5⟩],
        e.kind ≠ Kind.Frame) :=
  ⟨by decide,
   (getCurrentFrame_topmost
      [StackOp.push (Entry.Frame 1), StackOp.pushValue CType.uint32_t 5,
       StackOp.push (Entry.Frame 2), StackOp.popT Kind.Label, StackOp.pop]
      (StackManager.mk [Entry.Frame 1, Entry.Value ⟨ValType.I32, 5⟩] [0] [])
      (by decide)).1⟩

/-! ## Table instance: further lemmas and claims -/

theorem step_MinSize (t t1 : TableInstance) (op : TableOp) (hstep : t.step op = some t1) :
    t1.MinSize = t.MinSize := by
  cases op with
  | growTable Count =>
    simp only [TableInstance.step, Option.some.injEq] at hstep
    subst hstep
    unfold TableInstance.growTable
    simp only
    split <;> split <;> rfl
  | setInitList Offset Addrs =>
    simp only [TableInstance.step, TableInstance.setInitList] at hstep
    split at hstep
    · simp only [Option.some.injEq] at hstep
      subst hstep
      rfl
    · exact absurd hstep (by simp)

theorem run_MinSize (ops : List TableOp) :
    ∀ (t t1 : TableInstance), t.run ops = some t1 → t1.MinSize = t.MinSize := by
  induction ops with
  | nil =>
    intro t t1 hrun
    simp only [TableInstance.run, Option.some.injEq] at hrun
    subst hrun
    rfl
  | cons op ops ih =>
    intro t t1 hrun
    simp only [TableInstance.run] at hrun
    cases hstep : t.step op with
    | none => rw [hstep] at hrun; exact absurd hrun (by simp)
    | some t2 =>
      rw [hstep] at hrun
      exact (ih t2 t1 hrun).trans (step_MinSize t t2 op hstep)

theorem getElemAddr_congr (t t1 : TableInstance) (j : Nat)
    (hlen : t1.Elem.length = t.Elem.length) (hslot : t1.Elem[j]? = t.Elem[j]?) :
    t1.getElemAddr j = t.getElemAddr j := by
  rw [getElemAddr_eq, getElemAddr_eq]
  simp only [List.getD_eq_getElem?_getD, hlen, hslot]

/-- C12. On every table instance and for all 32-bit `Offset` and `Length`,
`checkAccessBound` is true exactly when the exact natural-number sum
`Offset + Length` is at most the declared minimum size; the answer is the same
after a `growTable` call and after any sequence of calls, so it does not depend
on the current size. -/
theorem checkAccessBound_iff (t : TableInstance) (Offset Length : Nat)
    (ho : Offset < U32) (hl : Length < U32) :
    (t.checkAccessBound Offset Length = true ↔ Offset + Length ≤ t.getMin) ∧
    (∀ Count, (t.growTable Count).2.checkAccessBound Offset Length
      = t.checkAccessBound Offset Length) ∧
    (∀ ops t1, t.run ops = some t1 →
      t1.checkAccessBound Offset Length = t.checkAccessBound Offset Length) := by
  have h1 : Offset % USIZE = Offset :=
    Nat.mod_eq_of_lt (by unfold U32 at ho; unfold USIZE; omega)
  have h2 : Length % USIZE = Length :=
    Nat.mod_eq_of_lt (by unfold U32 at hl; unfold USIZE; omega)
  have h3 : (Offset + Length) % USIZE = Offset + Length :=
    Nat.mod_eq_of_lt (by unfold U32 at ho hl; unfold USIZE; omega)
  refine ⟨?_, ?_, ?_⟩
  · unfold TableInstance.checkAccessBound TableInstance.getMin
    simp only [h1, h2, h3, decide_eq_true_eq]
  · intro Count
    have hmin : (t.growTable Count).2.MinSize = t.MinSize :=
      step_MinSize t _ (TableOp.growTable Count) rfl
    unfold TableInstance.checkAccessBound
    rw [hmin]
  · intro ops t1 hrun
    unfold TableInstance.checkAccessBound
    rw [run_MinSize ops t t1 hrun]

/-- C12 at concrete inputs: on a table with minimum 0, `Offset = 2^32 - 1` and
`Length = 1` are rejected (a 32-bit sum would wrap to 0 and be accepted); on a
table with minimum 2 grown to size 5, the run `[2, 3)` is still rejected. -/
theorem checkAccessBound_iff_witness :
    (TableInstance.new ElemType.FuncRef ⟨false, 0, 0⟩).checkAccessBound 4294967295 1 = false ∧
    ((TableInstance.new ElemType.FuncRef ⟨false, 2, 0⟩).growTable 3).2.checkAccessBound 2 1
      = false ∧
    ((TableInstance.new ElemType.FuncRef ⟨false, 2, 0⟩).growTable 3).2.getSize = 5 :=
  ⟨by
    have h := (checkAccessBound_iff (TableInstance.new ElemType.FuncRef ⟨false, 0, 0⟩)
      4294967295 1 (by decide) (by decide)).1
    cases hb : (TableInstance.new ElemType.FuncRef ⟨false, 0, 0⟩).checkAccessBound 4294967295 1
    · rfl
    · exact absurd (h.mp hb) (by decide),
   by decide, by decide⟩

/-- C13. On every table instance, for every offset and address list that fit
into the current size: `setInitList` has defined behaviour and returns
success, the size is unchanged, `getElemAddr(Offset + i)` returns `Addrs[i]`
for every position `i` of the list, and every slot outside the written run
keeps its content and its `getElemAddr` result. -/
theorem setInitList_effect (t : TableInstance) (Offset : Nat) (Addrs : List Nat)
    (hfit : Offset + Addrs.length ≤ t.getSize) :
    ∃ t1, t.setInitList Offset Addrs = some t1 ∧
      t1.getSize = t.getSize ∧
      (∀ i (hi : i < Addrs.length),
        t1.getElemAddr (Offset + i) = Except.ok (Addrs.get ⟨i, hi⟩)) ∧
      (∀ j, (j < Offset ∨ Offset + Addrs.length ≤ j) →
        t1.Elem[j]? = t.Elem[j]? ∧ t1.getElemAddr j = t.getElemAddr j) := by
  have hle : t.getSize ≤ t.Elem.length := Nat.mod_le _ _
  have hfit1 : Offset + Addrs.length ≤ t.Elem.length := le_trans hfit hle
  refine ⟨{ t with Elem := TableInstance.transformInto t.Elem Offset Addrs }, ?_, ?_, ?_, ?_⟩
  · unfold TableInstance.setInitList
    rw [if_pos hfit1]
  · unfold TableInstance.getSize
    simp only [transformInto_length]
  · intro i hi
    rw [getElemAddr_eq]
    have hlen : ¬ t.Elem.length ≤ Offset + i := by omega
    have hin : Offset ≤ Offset + i ∧ Offset + i < Offset + Addrs.length := by omega
    simp only [transformInto_length, if_neg hlen, List.getD_eq_getElem?_getD,
      transformInto_getElem? Addrs t.Elem Offset (Offset + i) hfit1, if_pos hin,
      Nat.add_sub_cancel_left, List.getElem?_eq_getElem hi]
    simp
  · intro j hj
    have hout : ¬ (Offset ≤ j ∧ j < Offset + Addrs.length) := by omega
    have hslot : (TableInstance.transformInto t.Elem Offset Addrs)[j]? = t.Elem[j]? := by
      rw [transformInto_getElem? Addrs t.Elem Offset j hfit1, if_neg hout]
    exact ⟨hslot, getElemAddr_congr t _ j (transformInto_length _ _ _) hslot⟩

/-- C13 at a concrete table of size 3 with slot 0 initialised: writing
`[8, 9]` at offset 1. -/
theorem setInitList_effect_witness :
    ∃ t1, (TableInstance.mk ElemType.FuncRef true 3 3 [(1, 7), (0, 0), (0, 0)]).setInitList 1
        [8, 9] = some t1 ∧
      t1.getSize = 3 ∧ t1.getElemAddr 2 = Except.ok 9 ∧ t1.getElemAddr 0 = Except.ok 7 := by
  obtain ⟨t1, h1, h2, h3, h4⟩ := setInitList_effect
    (TableInstance.mk ElemType.FuncRef true 3 3 [(1, 7), (0, 0), (0, 0)]) 1 [8, 9] (by decide)
  exact ⟨t1, h1, h2.trans (by decide), h3 1 (by decide),
    (h4 0 (Or.inl (by decide))).2.trans rfl⟩

/-- C16. Every slot of a freshly constructed table instance is uninitialised:
`getElemAddr(i)` returns `UninitializedElement` for every `i` below the declared
minimum.  On every table instance that can exist, after a successful
`growTable(k)` from size `n` every new slot `i` with `n ≤ i < n + k` is
uninitialised as well. -/
theorem new_slots_uninitialized :
    (∀ (ty : ElemType) (Lim : Limit) (i : Nat), i < Lim.getMin →
      (TableInstance.new ty Lim).getElemAddr i
        = Except.error ErrCode.UninitializedElement) ∧
    (∀ (t : TableInstance) (k i : Nat), t.Reachable → k < U32 →
      (t.growTable k).1 = true → t.getSize ≤ i → i < t.getSize + k →
      (t.growTable k).2.getElemAddr i = Except.error ErrCode.UninitializedElement) := by
  constructor
  · intro ty Lim i hi
    rw [getElemAddr_eq, new_length]
    have h : ¬ Lim.getMin ≤ i := by omega
    simp only [if_neg h, TableInstance.new, List.getD_eq_getElem?_getD,
      List.getElem?_replicate_of_lt hi]
    simp
  · intro t k i hreach hk hok hlo hhi
    have hlen := reachable_length t hreach
    rw [getSize_eq t hlen] at hlo hhi
    rw [growTable_eq t k hlen hk] at hok ⊢
    by_cases hgt : k + t.Elem.length > t.cap
    · rw [if_pos hgt] at hok
      exact absurd hok (by simp)
    · rw [if_neg hgt, getElemAddr_eq]
      have h : ¬ (t.Elem ++ List.replicate k ((0 : Nat), (0 : Nat))).length ≤ i := by
        simp only [List.length_append, List.length_replicate]; omega
      have hslot : (t.Elem ++ List.replicate k ((0 : Nat), (0 : Nat)))[i]? = some (0, 0) := by
        rw [List.getElem?_append_right hlo, List.getElem?_replicate_of_lt (by omega)]
      simp only [if_neg h, List.getD_eq_getElem?_getD, hslot]
      simp

/-- C16 at concrete tables: a fresh table with minimum 2, and a table of size 1
with slot 0 initialised that is grown by 2. -/
theorem new_slots_uninitialized_witness :
    (TableInstance.new ElemType.FuncRef ⟨true, 2, 2⟩).getElemAddr 1
      = Except.error ErrCode.UninitializedElement ∧
    ((TableInstance.mk ElemType.FuncRef true 1 3 [(1, 7)]).growTable 2).2.getElemAddr 2
      = Except.error ErrCode.UninitializedElement :=
  ⟨new_slots_uninitialized.1 ElemType.FuncRef ⟨true, 2, 2⟩ 1 (by decide),
   new_slots_uninitialized.2 (TableInstance.mk ElemType.FuncRef true 1 3 [(1, 7)]) 2 2
     ⟨ElemType.FuncRef, ⟨true, 1, 3⟩, [TableOp.setInitList 0 [7]], by decide, by decide, rfl⟩
     (by decide) (by decide) (by decide) (by decide)⟩

/-! ## Stack manager: further claims -/

/-- C11. In every stack state and for every kind `K`, `getTop<K>` leaves the
stack and both index vectors as they are; it returns `StackEmpty` on the empty
stack, `StackWrongEntry` when the top entry is of another kind, and otherwise
succeeds with the top entry, which is the entry that a `pop<K>` called instead
hands back. -/
theorem getTop_status {F L : Type} (s : StackManager F L) (K : Kind) :
    s.step (StackOp.getTop K) = s ∧
    (s.Stack = [] → s.getTop K = (ErrCode.StackEmpty, none)) ∧
    (∀ e, s.Stack.getLast? = some e → e.kind ≠ K →
      s.getTop K = (ErrCode.StackWrongEntry, none)) ∧
    (∀ e, s.Stack.getLast? = some e → e.kind = K →
      s.getTop K = (ErrCode.Success, some e) ∧
      (s.popT K).1 = ErrCode.Success ∧ (s.popT K).2.1 = some e) := by
  refine ⟨rfl, ?_, ?_, ?_⟩
  · intro hnil
    simp [StackManager.getTop, hnil]
  · intro e hlast hk
    simp [StackManager.getTop, hlast, hk]
  · intro e hlast hk
    simp [StackManager.getTop, StackManager.popT, hlast, hk]

/-- C11 at concrete states: a Label on top of a Frame, asked for a Label and
for a Frame, and the empty stack. -/
theorem getTop_status_witness :
    (StackManager.mk [Entry.Frame 1, Entry.Label 2] [0] [1] : StackManager Nat Nat).getTop
      Kind.Label = (ErrCode.Success, some (Entry.Label 2)) ∧
    (StackManager.mk [Entry.Frame 1, Entry.Label 2] [0] [1] : StackManager Nat Nat).getTop
      Kind.Frame = (ErrCode.StackWrongEntry, none) ∧
    (StackManager.empty : StackManager Nat Nat).getTop Kind.Value
      = (ErrCode.StackEmpty, none) :=
  ⟨((getTop_status (StackManager.mk [Entry.Frame 1, Entry.Label 2] [0] [1] :
      StackManager Nat Nat) Kind.Label).2.2.2 (Entry.Label 2) rfl rfl).1,
   (getTop_status (StackManager.mk [Entry.Frame 1, Entry.Label 2] [0] [1] :
      StackManager Nat Nat) Kind.Frame).2.2.1 (Entry.Label 2) rfl (by decide),
   (getTop_status (StackManager.empty : StackManager Nat Nat) Kind.Value).2.1 rfl⟩

/-- C15. In every state reached from the empty stack manager by a sequence of
its calls, `FrameIdx` is the increasing list of all stack positions that hold a
Frame entry and `LabelIdx` the increasing list of all stack positions that hold
a Label entry: a position is in the index vector exactly when the stack holds
an entry of that kind there.  Consequently, when the top entry is a Frame
(a Label), the last element of `FrameIdx` (`LabelIdx`) is `Stack.size() - 1`. -/
theorem sidecars_are_positions {F L : Type} (ops : List (StackOp F L))
    (s : StackManager F L) (hs : (StackManager.empty : StackManager F L).run ops = s) :
    s.FrameIdx = StackManager.positions Kind.Frame s.Stack ∧
    s.LabelIdx = StackManager.positions Kind.Label s.Stack ∧
    (∀ i, i ∈ s.FrameIdx ↔ ∃ f, s.Stack[i]? = some (Entry.Frame f)) ∧
    (∀ i, i ∈ s.LabelIdx ↔ ∃ l, s.Stack[i]? = some (Entry.Label l)) ∧
    s.FrameIdx.Pairwise (fun a b => a < b) ∧
    s.LabelIdx.Pairwise (fun a b => a < b) ∧
    (∀ f, s.Stack.getLast? = some (Entry.Frame f) →
      s.FrameIdx.getLast? = some (s.Stack.length - 1)) ∧
    (∀ l, s.Stack.getLast? = some (Entry.Label l) →
      s.LabelIdx.getLast? = some (s.Stack.length - 1)) := by
  have hinv : s.Inv := by
    rw [← hs]; exact inv_run ops _ inv_empty
  obtain ⟨hF, hL⟩ := hinv
  refine ⟨hF, hL, fun i => ⟨fun hi => ?_, fun hi => ?_⟩, fun i => ⟨fun hi => ?_, fun hi => ?_⟩,
    by rw [hF]; exact positionsFrom_pairwise _ _ 0,
    by rw [hL]; exact positionsFrom_pairwise _ _ 0, fun f hlast => ?_, fun l hlast => ?_⟩
  · rw [hF] at hi
    obtain ⟨_, e, he, hk⟩ := mem_positionsFrom Kind.Frame s.Stack 0 i hi
    rw [Nat.sub_zero] at he
    cases e with
    | Frame f => exact ⟨f, he⟩
    | Label l => exact absurd hk (by simp [Entry.kind])
    | Value v => exact absurd hk (by simp [Entry.kind])
  · obtain ⟨f, hf⟩ := hi
    have := positionsFrom_complete Kind.Frame s.Stack 0 i _ hf rfl
    rw [Nat.zero_add] at this
    rw [hF]; exact this
  · rw [hL] at hi
    obtain ⟨_, e, he, hk⟩ := mem_positionsFrom Kind.Label s.Stack 0 i hi
    rw [Nat.sub_zero] at he
    cases e with
    | Frame f => exact absurd hk (by simp [Entry.kind])
    | Label l => exact ⟨l, he⟩
    | Value v => exact absurd hk (by simp [Entry.kind])
  · obtain ⟨l, hl⟩ := hi
    have := positionsFrom_complete Kind.Label s.Stack 0 i _ hl rfl
    rw [Nat.zero_add] at this
    rw [hL]; exact this
  · have h := (inv_split s _ ⟨hF, hL⟩ hlast).1
    simp only [Entry.kind, if_true, List.length_dropLast] at h
    rw [h]
    simp
  · have h := (inv_split s _ ⟨hF, hL⟩ hlast).2
    simp only [Entry.kind, if_true, List.length_dropLast] at h
    rw [h]
    simp

/-- C15 on a concrete run that ends with a Label on top: the last `LabelIdx`
element is the top position 2. -/
theorem sidecars_are_positions_witness :
    (StackManager.mk [Entry.Frame 1, Entry.Value ⟨ValType.I64, 5⟩, Entry.Label 3] [0] [2] :
      StackManager Nat Nat).LabelIdx.getLast? = some (3 - 1) ∧
    (∀ i, i ∈ [0] ↔ ∃ f, ([Entry.Frame 1, Entry.Value ⟨ValType.I64, 5⟩, Entry.Label 3] :
      List (Entry Nat Nat))[i]? = some (Entry.Frame f)) :=
  have h := sidecars_are_positions
    [StackOp.push (Entry.Frame 1), StackOp.push (Entry.Label 2), StackOp.pop,
     StackOp.pushValue CType.uint64_t 5, StackOp.push (Entry.Label 3)]
    (StackManager.mk [Entry.Frame 1, Entry.Value ⟨ValType.I64, 5⟩, Entry.Label 3] [0] [2])
    (by decide)
  ⟨h.2.2.2.2.2.2.2 3 rfl, h.2.2.1⟩

/-! ## Stack manager: label depth after a push -/

/-- Outside the wrap-around of `Count + 1` and with fewer than `2^32` labels,
`getLabelWithCount` is the intended lookup. -/
theorem getLabelWithCount_eq {F L : Type} (s : StackManager F L) (Count : Nat)
    (hn : s.LabelIdx.length < U32) (hc : Count + 1 < U32) :
    s.getLabelWithCount Count =
      if s.LabelIdx.length < Count + 1 then Access.err ErrCode.WrongInstanceAddress
      else
        match s.LabelIdx.get? (s.LabelIdx.length - Count - 1) with
        | none => Access.outOfRange
        | some i =>
          match s.Stack.get? i with
          | none => Access.outOfRange
          | some (Entry.Label l) => Access.ok l
          | some _ => Access.badVariant := by
  have h1 : s.LabelIdx.length % USIZE = s.LabelIdx.length :=
    Nat.mod_eq_of_lt (by unfold U32 at hn; unfold USIZE; omega)
  have h2 : (Count + 1) % U32 = Count + 1 := Nat.mod_eq_of_lt hc
  unfold StackManager.getLabelWithCount
  simp only [h1, h2]
  by_cases hg : s.LabelIdx.length < Count + 1
  · rw [if_pos hg, if_pos hg]
  · rw [if_neg hg, if_neg hg]
    have h3 : (s.LabelIdx.length + USIZE - Count) % USIZE = s.LabelIdx.length - Count := by
      have : s.LabelIdx.length + USIZE - Count = (s.LabelIdx.length - Count) + USIZE := by
        unfold USIZE; omega
      rw [this, Nat.add_mod_right]
      exact Nat.mod_eq_of_lt (by unfold U32 at hn; unfold USIZE; omega)
    have h4 : (s.LabelIdx.length - Count + USIZE - 1) % USIZE
        = s.LabelIdx.length - Count - 1 := by
      have : s.LabelIdx.length - Count + USIZE - 1
          = (s.LabelIdx.length - Count - 1) + USIZE := by
        unfold USIZE; omega
      rw [this, Nat.add_mod_right]
      exact Nat.mod_eq_of_lt (by unfold U32 at hn; unfold USIZE; omega)
    have h5 : (s.LabelIdx.length - Count - 1) % U32 = s.LabelIdx.length - Count - 1 :=
      Nat.mod_eq_of_lt (by omega)
    rw [h3, h4, h5]

theorem labelIdx_lt_of_inv {F L : Type} (s : StackManager F L) (hinv : s.Inv) :
    ∀ i ∈ s.LabelIdx, i < s.Stack.length := by
  intro i hi
  rw [hinv.2] at hi
  obtain ⟨_, e, he, _⟩ := mem_positionsFrom Kind.Label s.Stack 0 i hi
  rw [Nat.sub_zero] at he
  by_contra hge
  rw [List.getElem?_eq_none (by omega)] at he
  exact absurd he (by simp)

theorem frameIdx_lt_of_inv {F L : Type} (s : StackManager F L) (hinv : s.Inv) :
    ∀ i ∈ s.FrameIdx, i < s.Stack.length := by
  intro i hi
  rw [hinv.1] at hi
  obtain ⟨_, e, he, _⟩ := mem_positionsFrom Kind.Frame s.Stack 0 i hi
  rw [Nat.sub_zero] at he
  by_contra hge
  rw [List.getElem?_eq_none (by omega)] at he
  exact absurd he (by simp)

/-- After `push<LabelEntry>(l)`, depth 0 is `l`. -/
theorem push_label_depth_zero {F L : Type} (s : StackManager F L) (l : L)
    (hn : s.LabelIdx.length + 1 < U32) :
    (s.push (Entry.Label l)).2.getLabelWithCount 0 = Access.ok l := by
  have hlen : (s.push (Entry.Label l)).2.LabelIdx.length = s.LabelIdx.length + 1 := by
    simp [StackManager.push, Entry.kind]
  rw [getLabelWithCount_eq _ 0 (by rw [hlen]; exact hn) (by decide)]
  simp [StackManager.push, Entry.kind]

/-- After `push<LabelEntry>(l)`, depth `d + 1` is what depth `d` was before,
as long as `d + 1` stays below `2^32 - 1`. -/
theorem push_label_depth_succ {F L : Type} (s : StackManager F L) (l : L) (d : Nat)
    (hinv : s.Inv) (hn : s.LabelIdx.length + 1 < U32) (hd : d + 2 < U32) :
    (s.push (Entry.Label l)).2.getLabelWithCount (d + 1) = s.getLabelWithCount d := by
  have hlen : (s.push (Entry.Label l)).2.LabelIdx.length = s.LabelIdx.length + 1 := by
    simp [StackManager.push, Entry.kind]
  rw [getLabelWithCount_eq _ (d + 1) (by rw [hlen]; exact hn) hd,
    getLabelWithCount_eq s d (by omega) (by omega), hlen]
  by_cases hg : s.LabelIdx.length < d + 1
  · have hg1 : s.LabelIdx.length + 1 < d + 1 + 1 := by omega
    rw [if_pos hg, if_pos hg1]
  · have hg1 : ¬ s.LabelIdx.length + 1 < d + 1 + 1 := by omega
    rw [if_neg hg, if_neg hg1]
    have hidx : s.LabelIdx.length + 1 - (d + 1) - 1 = s.LabelIdx.length - d - 1 := by omega
    have hlt : s.LabelIdx.length - d - 1 < s.LabelIdx.length := by omega
    have hget : (s.push (Entry.Label l)).2.LabelIdx.get? (s.LabelIdx.length - d - 1)
        = some (s.LabelIdx.get ⟨_, hlt⟩) := by
      simp [StackManager.push, Entry.kind, List.getElem?_append_left hlt,
        List.getElem?_eq_getElem hlt]
    have hget0 : s.LabelIdx.get? (s.LabelIdx.length - d - 1)
        = some (s.LabelIdx.get ⟨_, hlt⟩) := by
      simp [List.getElem?_eq_getElem hlt]
    have hpos : s.LabelIdx.get ⟨_, hlt⟩ < s.Stack.length :=
      labelIdx_lt_of_inv s hinv _ (List.get_mem _ _ _)
    have hstk : (s.push (Entry.Label l)).2.Stack.get? (s.LabelIdx.get ⟨_, hlt⟩)
        = s.Stack.get? (s.LabelIdx.get ⟨_, hlt⟩) := by
      simp only [StackManager.push, List.get?_eq_getElem?]
      exact List.getElem?_append_left hpos
    rw [hidx, hget, hget0]
    simp only [hstk]

/-- After `push<FrameEntry>(f)` the current frame is `f`, in every state. -/
theorem push_frame_current {F L : Type} (s : StackManager F L) (f : F) :
    (s.push (Entry.Frame f)).2.getCurrentFrame = Access.ok f := by
  simp [StackManager.push, StackManager.getCurrentFrame, Entry.kind]

/-- Pushing a Value entry, by `push<ValueEntry>` or by `pushValue`, changes
neither the current frame nor the label found at any depth, in every state
whose index vectors list the frame and label positions. -/
theorem push_value_keeps_lookups {F L : Type} (s : StackManager F L) (hinv : s.Inv) :
    (∀ v, (s.push (Entry.Value v)).2.getCurrentFrame = s.getCurrentFrame ∧
      ∀ Count, (s.push (Entry.Value v)).2.getLabelWithCount Count
        = s.getLabelWithCount Count) ∧
    (∀ T Val, (s.pushValue T Val).2.getCurrentFrame = s.getCurrentFrame ∧
      ∀ Count, (s.pushValue T Val).2.getLabelWithCount Count
        = s.getLabelWithCount Count) := by
  have key : ∀ (v : ValueEntry) (s1 : StackManager F L),
      s1.Stack = s.Stack ++ [Entry.Value v] → s1.FrameIdx = s.FrameIdx →
      s1.LabelIdx = s.LabelIdx →
      s1.getCurrentFrame = s.getCurrentFrame ∧
      ∀ Count, s1.getLabelWithCount Count = s.getLabelWithCount Count := by
    intro v s1 hS hFi hLi
    constructor
    · unfold StackManager.getCurrentFrame
      rw [hFi]
      cases hlast : s.FrameIdx.getLast? with
      | none => rfl
      | some i =>
        have hi : i < s.Stack.length :=
          frameIdx_lt_of_inv s hinv i (List.mem_of_getLast?_eq_some hlast)
        simp only [hS, List.get?_eq_getElem?, List.getElem?_append_left hi]
    · intro Count
      unfold StackManager.getLabelWithCount
      rw [hLi]
      split
      · rfl
      · simp only
        cases hget : s.LabelIdx.get? (((s.LabelIdx.length % USIZE + USIZE - Count) % USIZE
            + USIZE - 1) % USIZE % U32) with
        | none => rfl
        | some i =>
          have hmem : i ∈ s.LabelIdx := by
            rw [List.get?_eq_getElem?] at hget
            exact List.getElem?_mem hget
          have hi : i < s.Stack.length := labelIdx_lt_of_inv s hinv i hmem
          simp only [hS, List.get?_eq_getElem?, List.getElem?_append_left hi]
  constructor
  · intro v
    exact key v _ (by simp [StackManager.push]) (by simp [StackManager.push, Entry.kind])
      (by simp [StackManager.push, Entry.kind])
  · intro T Val
    unfold StackManager.pushValue
    cases hT : T.valType with
    | none => exact ⟨rfl, fun _ => rfl⟩
    | some ty => exact key ⟨ty, Val⟩ _ rfl rfl rfl

/-- C17, the code at the failing input `d = 2^32 - 2` on the empty stack
manager.  Before the push `getLabelWithCount(2^32 - 2)` returns the error
`WrongInstanceAddress`; after `push<LabelEntry>(7)` the call
`getLabelWithCount(2^32 - 1)` does not return that error: `Count + 1` wraps to
0, the guard does not fire and `LabelIdx` is read at index 1, past its end.
The shallower depths behave as the claim says. -/
theorem push_label_depth_shift_at_max :
    (StackManager.empty : StackManager Nat Nat).getLabelWithCount 4294967294
      = Access.err ErrCode.WrongInstanceAddress ∧
    ((StackManager.empty : StackManager Nat Nat).push (Entry.Label 7)).2.getLabelWithCount
      4294967295 = Access.outOfRange ∧
    ((StackManager.empty : StackManager Nat Nat).push (Entry.Label 7)).2.getLabelWithCount 0
      = Access.ok 7 ∧
    ((StackManager.empty : StackManager Nat Nat).push (Entry.Label 7)).2.getLabelWithCount 1
      = (StackManager.empty : StackManager Nat Nat).getLabelWithCount 0 := by
  decide

/-! ## Host function `EEIFinish`: claims -/

/-- C14. For every argument list whose length is not 2, `EEIFinish::run`
returns `CallFunctionError`, and the return data of the environment, the result
vector and the store are what they were before the call. -/
theorem run_wrong_arity {Store ModInst MemInst : Type}
    (C : FinishCallees Store ModInst MemInst) (Args : List ValueEntry)
    (st : FinishState Store) (Mod : ModInst) (harity : Args.length ≠ 2) :
    EEIFinish.run C Args st Mod = (ErrCode.CallFunctionError, st) := by
  unfold EEIFinish.run
  split
  · exact absurd rfl harity
  · rfl

/-- C14 at concrete inputs: one argument, and three arguments. -/
theorem run_wrong_arity_witness :
    EEIFinish.run (⟨fun v => v.Bits, fun _ _ => (ErrCode.Success, 0),
        fun _ _ => (ErrCode.Success, ()), fun _ _ _ _ => (ErrCode.Success, [1])⟩ :
        FinishCallees Unit Unit Unit)
      [⟨ValType.I32, 4⟩] ⟨[9, 9], [⟨ValType.I32, 1⟩], ()⟩ ()
      = (ErrCode.CallFunctionError, ⟨[9, 9], [⟨ValType.I32, 1⟩], ()⟩) ∧
    EEIFinish.run (⟨fun v => v.Bits, fun _ _ => (ErrCode.Success, 0),
        fun _ _ => (ErrCode.Success, ()), fun _ _ _ _ => (ErrCode.Success, [1])⟩ :
        FinishCallees Unit Unit Unit)
      [⟨ValType.I32, 4⟩, ⟨ValType.I32, 0⟩, ⟨ValType.I32, 0⟩] ⟨[9, 9], [], ()⟩ ()
      = (ErrCode.CallFunctionError, ⟨[9, 9], [], ()⟩) :=
  ⟨run_wrong_arity _ _ _ _ (by decide), run_wrong_arity _ _ _ _ (by decide)⟩

/-- C18 as stated fails when memory index 0 does not resolve: for a module
instance without memory (`getMemAddr` returns `WrongInstanceAddress`) and the
arguments length 4, offset 0, `run` returns `WrongInstanceAddress` with the
return data cleared; no read is issued, and the status is not the one the read
would give (`Success`). -/
theorem run_read_status_counterexample :
    EEIFinish.run (⟨fun v => v.Bits, fun _ _ => (ErrCode.WrongInstanceAddress, 0),
        fun _ _ => (ErrCode.Success, ()), fun _ _ _ _ => (ErrCode.Success, [1, 2, 3, 4])⟩ :
        FinishCallees Unit Unit Unit)
      [⟨ValType.I32, 4⟩, ⟨ValType.I32, 0⟩] ⟨[9, 9], [], ()⟩ ()
      = (ErrCode.WrongInstanceAddress, ⟨[], [], ()⟩) ∧
    (EEIFinish.run (⟨fun v => v.Bits, fun _ _ => (ErrCode.WrongInstanceAddress, 0),
        fun _ _ => (ErrCode.Success, ()), fun _ _ _ _ => (ErrCode.Success, [1, 2, 3, 4])⟩ :
        FinishCallees Unit Unit Unit)
      [⟨ValType.I32, 4⟩, ⟨ValType.I32, 0⟩] ⟨[9, 9], [], ()⟩ ()).1
      ≠ ((⟨fun v => v.Bits, fun _ _ => (ErrCode.WrongInstanceAddress, 0),
        fun _ _ => (ErrCode.Success, ()), fun _ _ _ _ => (ErrCode.Success, [1, 2, 3, 4])⟩ :
        FinishCallees Unit Unit Unit).getBytes () [] 0 4).1 := by
  constructor
  · rfl
  · decide

/-- C18, amended.  For every call of `EEIFinish::run` with exactly two
arguments and a data length `Args[0]` above 0: when memory index 0 of the
calling module instance resolves (`getMemAddr(0)` and `getMemory` both return
`Success`), `getBytes` is called on that memory with the empty return-data
buffer, offset `Args[1]` and length `Args[0]`, and `run` returns the status of
that read with the return data as the read left it; when one of the two lookups
fails, `run` returns the status of the failing lookup with the return data
cleared.  `Res` and the store are unchanged in each case. -/
theorem run_reads_with_swapped_args {Store ModInst MemInst : Type}
    (C : FinishCallees Store ModInst MemInst) (A0 A1 : ValueEntry)
    (st : FinishState Store) (Mod : ModInst) (hlen : C.retrieveValue A0 > 0) :
    ((C.getMemAddr Mod 0).1 = ErrCode.Success →
      (C.getMemory st.Store (C.getMemAddr Mod 0).2).1 = ErrCode.Success →
      EEIFinish.run C [A0, A1] st Mod =
        ((C.getBytes (C.getMemory st.Store (C.getMemAddr Mod 0).2).2 []
            (C.retrieveValue A1) (C.retrieveValue A0)).1,
         { st with ReturnData :=
            (C.getBytes (C.getMemory st.Store (C.getMemAddr Mod 0).2).2 []
              (C.retrieveValue A1) (C.retrieveValue A0)).2 })) ∧
    ((C.getMemAddr Mod 0).1 ≠ ErrCode.Success →
      EEIFinish.run C [A0, A1] st Mod =
        ((C.getMemAddr Mod 0).1, { st with ReturnData := [] })) ∧
    ((C.getMemAddr Mod 0).1 = ErrCode.Success →
      (C.getMemory st.Store (C.getMemAddr Mod 0).2).1 ≠ ErrCode.Success →
      EEIFinish.run C [A0, A1] st Mod =
        ((C.getMemory st.Store (C.getMemAddr Mod 0).2).1, { st with ReturnData := [] })) := by
  refine ⟨fun h1 h2 => ?_, fun h1 => ?_, fun h1 h2 => ?_⟩
  · simp only [EEIFinish.run, hlen, if_true, h1, h2, ne_eq, not_true_eq_false, if_false]
    split
    · rfl
    · rename_i h3
      rw [not_not] at h3
      rw [h3]
  · simp only [EEIFinish.run, hlen, if_true, ne_eq, h1, not_false_eq_true]
  · simp only [EEIFinish.run, hlen, if_true, ne_eq, h1, h2, not_true_eq_false, if_false,
      not_false_eq_true]

/-- C18, amended, at concrete inputs: a memory holding the bytes 0 to 15 and
a bounds-checked read.  With `Args[0] = 4` and `Args[1] = 12` the call returns the
four bytes at offset 12 (the other order, length 12 at offset 4, would return
twelve bytes starting with 4). -/
theorem run_reads_with_swapped_args_witness :
    EEIFinish.run (⟨fun v => v.Bits, fun _ _ => (ErrCode.Success, 0),
        fun _ _ => (ErrCode.Success, List.range 16),
        fun m _ off len => if off + len ≤ m.length then
          (ErrCode.Success, (m.drop off).take len) else (ErrCode.UndefinedElement, [])⟩ :
        FinishCallees Unit Unit (List Nat))
      [⟨ValType.I32, 4⟩, ⟨ValType.I32, 12⟩] ⟨[9, 9], [], ()⟩ ()
      = (ErrCode.Success, ⟨[12, 13, 14, 15], [], ()⟩) :=
  ((run_reads_with_swapped_args (⟨fun v => v.Bits, fun _ _ => (ErrCode.Success, 0),
        fun _ _ => (ErrCode.Success, List.range 16),
        fun m _ off len => if off + len ≤ m.length then
          (ErrCode.Success, (m.drop off).take len) else (ErrCode.UndefinedElement, [])⟩ :
        FinishCallees Unit Unit (List Nat))
      ⟨ValType.I32, 4⟩ ⟨ValType.I32, 12⟩ ⟨[9, 9], [], ()⟩ () (by decide)).1 rfl rfl).trans rfl

/-- C19. For every call of `EEIFinish::run` with exactly two arguments whose
data length `Args[0]` is 0, whatever the data offset and whatever the memory
lookups and the read would answer, `run` returns `Success`, the return data is
empty and `Res` and the store are unchanged. -/
theorem run_zero_length {Store ModInst MemInst : Type}
    (C : FinishCallees Store ModInst MemInst) (A0 A1 : ValueEntry)
    (st : FinishState Store) (Mod : ModInst) (hzero : C.retrieveValue A0 = 0) :
    EEIFinish.run C [A0, A1] st Mod = (ErrCode.Success, { st with ReturnData := [] }) := by
  simp [EEIFinish.run, hzero]

/-- C19 at concrete inputs: a module instance without memory, a read that
would fail, offset `2^32 - 1`; the call still succeeds. -/
theorem run_zero_length_witness :
    EEIFinish.run (⟨fun v => v.Bits, fun _ _ => (ErrCode.WrongInstanceAddress, 0),
        fun _ _ => (ErrCode.WrongInstanceAddress, ()),
        fun _ _ _ _ => (ErrCode.UndefinedElement, [])⟩ : FinishCallees Unit Unit Unit)
      [⟨ValType.I32, 0⟩, ⟨ValType.I32, 4294967295⟩] ⟨[9, 9], [⟨ValType.I32, 1⟩], ()⟩ ()
      = (ErrCode.Success, ⟨[], [⟨ValType.I32, 1⟩], ()⟩) :=
  run_zero_length _ ⟨ValType.I32, 0⟩ ⟨ValType.I32, 4294967295⟩ _ () rfl

end SSVM
